import Mathlib

set_option maxRecDepth 1000000

/-
  Verification of the `cli_adapters` package (OpenCode / Codex / Gemini skill
  adapters) against its natural-language specification.

  The Python sources are shallowly embedded over `List Char`:
  * Python `str` values are `List Char`;
  * `str.replace(old, new)` is `replaceAll` (left-to-right, non-overlapping);
  * the substring test `pat in s` is `containsSub pat s`;
  * `re.sub(r'from shared\.(\w+)', ...)` and the `import` variant are the
    scanners `subScanFrom` / `subScanImport`;
  * Python dicts are association lists with in-place update (`dictUpdate`);
  * a directory that may be absent is an `Option` of its file listing;
  * `base.py` (class `CLIAdapter`) is not among the sources, so its two
    relevant members are modelled from the spec and marked as such.
-/

/-! ## Boolean string primitives (mirroring Python `str` operations) -/

/-- Boolean prefix test on character lists (Python `startswith`). -/
def pfx : List Char → List Char → Bool
  | [], _ => true
  | _ :: _, [] => false
  | a :: as, b :: bs => a == b && pfx as bs

/-- Boolean suffix test on character lists (Python `endswith`). -/
def sfxB (t : List Char) : List Char → Bool
  | [] => t.isEmpty
  | c :: s => (t == c :: s) || sfxB t s

/-- Boolean substring test (Python `t in s`). -/
def containsSub (t : List Char) : List Char → Bool
  | [] => t.isEmpty
  | c :: s => pfx t (c :: s) || containsSub t s

/-- Test for two occurrences of `t` at distinct start positions in `s`. -/
def containsTwoSub (t : List Char) : List Char → Bool
  | [] => false
  | c :: s => if pfx t (c :: s) then containsSub t s else containsTwoSub t s

/-- Fuel-driven scanner of Python `s.replace(t, r)`; the fuel is an upper
bound on the length of the scanned list, so it never runs out. -/
def replaceAllGo (t r : List Char) : Nat → List Char → List Char
  | 0, s => s
  | _ + 1, [] => []
  | n + 1, c :: s =>
    if pfx t (c :: s) then r ++ replaceAllGo t r n (List.drop (t.length - 1) s)
    else c :: replaceAllGo t r n s

/-- Python `s.replace(t, r)`: replace the non-overlapping occurrences of `t`
by `r`, scanning left to right. -/
def replaceAll (t r s : List Char) : List Char := replaceAllGo t r s.length s

/-! ## Association-list model of Python `dict`

`d[k] = v` replaces the value in place when the key is present and appends
the binding otherwise, which preserves key uniqueness. -/

def dictUpdate {α : Type} (m : List (List Char × α)) (k : List Char) (v : α) :
    List (List Char × α) :=
  match m with
  | [] => [(k, v)]
  | (k', v') :: rest => if k' = k then (k, v) :: rest else (k', v') :: dictUpdate rest k v

/-- Fold a sequence of `d[k] = v` updates into a dict. -/
def foldUpdate {α : Type} (m : List (List Char × α)) (l : List (List Char × α)) :
    List (List Char × α) :=
  l.foldl (fun acc kv => dictUpdate acc kv.1 kv.2) m

def dictLookup {α : Type} (m : List (List Char × α)) (k : List Char) : Option α :=
  match m with
  | [] => none
  | (k', v) :: rest => if k' = k then some v else dictLookup rest k

def dictKeys {α : Type} (m : List (List Char × α)) : List (List Char) := m.map Prod.fst

/-! ## Data model -/

/-- A Python file-content value: script contents read as text are `str`,
anything else (e.g. binary reads) is `bytes`. -/
inductive FileContent : Type
  | str (s : List Char)
  | bytes (b : List Nat)
deriving DecidableEq

/-- The on-disk skill source: an optional manifest (`SKILL.md`) and the files
under `scripts/`, listed as relative path / content pairs. -/
structure SkillSource : Type where
  manifest : Option (List Char)
  scripts : List (List Char × FileContent)
deriving DecidableEq

/-- The in-memory transformation result handed back to the caller. -/
structure SkillOutput : Type where
  skill_md : List Char
  scripts : List (List Char × FileContent)
deriving DecidableEq

/-- The shared-modules root. Each of the two well-known subtrees is `none`
when the directory does not exist, and otherwise lists its files as
path-relative-to-the-shared-root / text-content pairs (`rglob` order). -/
structure SharedRoot : Type where
  lsp_engine : Option (List (List Char × List Char))
  code_analyzer : Option (List (List Char × List Char))
deriving DecidableEq

/-- Filesystem existence state consulted by `OpenCodeAdapter.default_install_path`. -/
structure FsState : Type where
  claude_skills_exists : Bool
  opencode_skill_exists : Bool
deriving DecidableEq

/-! ## Shared textual patterns -/

def patFromShared : List Char := "from shared".data
def patImportShared : List Char := "import shared".data
def patLspClient : List Char := "lsp_client".data
def patCodeAnalyzer : List Char := "code_analyzer".data

def patFromSharedDot : List Char := "from shared.".data
def replFromSharedDot : List Char := "from .shared.".data
def patImportSharedDot : List Char := "import shared.".data
def replImportSharedDot : List Char := "from . import shared.".data

def patTemplatesSlash : List Char := "templates/".data
def patAssetsSlash : List Char := "assets/".data
def patDocsSlash : List Char := "docs/".data
def patReferencesSlash : List Char := "references/".data
def patBtTemplates : List Char := "`templates`".data
def patBtAssets : List Char := "`assets`".data
def patBtDocs : List Char := "`docs`".data
def patBtReferences : List Char := "`references`".data

def pySuffix : List Char := ".py".data
def ymlSuffix : List Char := ".yml".data
def xmlSuffix : List Char := ".xml".data
def sharedSlash : List Char := "shared/".data

/-- Modelled from the spec: the `${CLAUDE_PLUGIN_ROOT}` placeholder variable
that the common transform removes (`base.py` is not among the sources). -/
def varPat : List Char := "${CLAUDE_PLUGIN_ROOT}/".data

/-- Modelled from the spec: `CLIAdapter._common_skill_md_transforms` lives in
`base.py`, which is not among the provided sources. Per the spec (§4.1) it
strips markup specific to the originating CLI ecosystem, e.g. placeholder
variables; modelled as the removal of the `${CLAUDE_PLUGIN_ROOT}/` placeholder. -/
def common_skill_md_transforms (content : List Char) : List Char :=
  replaceAll varPat [] content

/-- Modelled from the spec: the base `CLIAdapter.transform_skill` (in the
missing `base.py`) reads the manifest (failing when absent), applies the
adapter's `transform_skill_md`, and copies all files under `scripts/`
verbatim into the output mapping. -/
def base_transform_skill (mdT : List Char → List Char) (src : SkillSource) :
    Option SkillOutput :=
  match src.manifest with
  | none => none
  | some md => some { skill_md := mdT md, scripts := src.scripts }

/-- The loop shared verbatim by all three `_needs_shared_modules` methods:
scan every script value; a `str` value containing one of the four marker
substrings triggers bundling, any non-`str` value is skipped. -/
def needsSharedScan (scripts : List (List Char × FileContent)) : Bool :=
  scripts.any fun pc =>
    match pc.2 with
    | .str content =>
        (containsSub patFromShared content || containsSub patImportShared content)
        || (containsSub patLspClient content || containsSub patCodeAnalyzer content)
    | .bytes _ => false

/-- The collection loop shared by the three `_bundle_shared_modules` methods:
`*.py` under `lsp-engine/` (content passed through `rw`), then `*.py`
(through `rw`), `*.yml`, `*.xml` under `code_analyzer/`; a missing directory
contributes nothing. `rw` is the per-adapter source rewriting (identity for
Codex and Gemini). -/
def bundleRawWith (rw : List Char → List Char) (root : SharedRoot) :
    List (List Char × List Char) :=
  (match root.lsp_engine with
   | none => []
   | some fs => (fs.filter fun f => sfxB pySuffix f.1).map fun f => (f.1, rw f.2))
  ++
  (match root.code_analyzer with
   | none => []
   | some fs =>
     ((fs.filter fun f => sfxB pySuffix f.1).map fun f => (f.1, rw f.2))
     ++ ((fs.filter fun f => sfxB ymlSuffix f.1).map fun f => (f.1, f.2))
     ++ ((fs.filter fun f => sfxB xmlSuffix f.1).map fun f => (f.1, f.2)))

/-! ## OpenCode adapter (`opencode.py`) -/

def OpenCodeAdapter.cli_name : List Char := "opencode".data

def ocHeading : List Char := "## OpenCode CLI Usage".data

def ocSec1 : List Char := "\n\n---\n\n## OpenCode CLI Usage\n\nThis skill is compatible with OpenCode CLI. To use:\n\n```bash\n# The skill is automatically loaded when placed in .opencode/skill/".data
def ocSec2 : List Char := "/\n# OpenCode will discover it and make it available in conversations.\n\n# To manually invoke validation scripts:\ncd .opencode/skill/".data
def ocSec3 : List Char := "/scripts\npython validate_*.py path/to/your/file\n```\n\n### Validation Scripts\n\nThe `scripts/` directory contains Python validation scripts that can be run\nmanually after editing files. In Claude Code, these run automatically via\nPostToolUse hooks.\n\nSee `scripts/README.md` for detailed usage instructions.\n".data

/-- The `opencode_section` f-string with `skill_name` spliced in. -/
def OpenCodeAdapter.opencode_section (skill_name : List Char) : List Char :=
  ocSec1 ++ skill_name ++ ocSec2 ++ skill_name ++ ocSec3

/-- `OpenCodeAdapter.default_install_path`: prefer an existing
`.claude/skills` directory, else default to `.opencode/skill`. The
filesystem is consulted only through `claude_path.exists()`. -/
def OpenCodeAdapter.default_install_path (cwd : List (List Char)) (fs : FsState) :
    List (List Char) :=
  let opencode_path := cwd ++ [(".opencode").data, ("skill").data]
  let claude_path := cwd ++ [(".claude").data, ("skills").data]
  if fs.claude_skills_exists then claude_path else opencode_path

/-- `OpenCodeAdapter.transform_skill_md`: common transforms, then append the
OpenCode usage section unless its heading is already present. -/
def OpenCodeAdapter.transform_skill_md (content skill_name : List Char) : List Char :=
  let c := common_skill_md_transforms content
  if containsSub ocHeading c then c else c ++ OpenCodeAdapter.opencode_section skill_name

/-- `OpenCodeAdapter._needs_shared_modules` (body identical in all three adapters). -/
def OpenCodeAdapter.needs_shared_modules (scripts : List (List Char × FileContent)) : Bool :=
  needsSharedScan scripts

def isWordChar (c : Char) : Bool := c.isAlphanum || c == '_'

/-- Greedy split of a leading `\w+` run (the capture group of the rewrite regexes). -/
def splitWords : List Char → (List Char × List Char)
  | [] => ([], [])
  | c :: rest =>
    if isWordChar c then
      let p := splitWords rest
      (c :: p.1, p.2)
    else ([], c :: rest)

/-- Fuel-driven scanner of `re.sub(pat ++ r'(\w+)', rep ++ group, content)`
for a literal `pat`: at each position try the literal followed by a
non-empty greedy word run; on a match emit `rep` and the captured word and
continue after the match, otherwise copy one character. -/
def subScanGo (pat rep : List Char) : Nat → List Char → List Char
  | 0, s => s
  | _ + 1, [] => []
  | n + 1, c :: s =>
    if pfx pat (c :: s) then
      let p := splitWords (List.drop (pat.length - 1) s)
      if p.1.isEmpty then c :: subScanGo pat rep n s
      else rep ++ p.1 ++ subScanGo pat rep n p.2
    else c :: subScanGo pat rep n s

def subScan (pat rep s : List Char) : List Char := subScanGo pat rep s.length s

/-- `re.sub(r'from shared\.(\w+)', r'from .shared.\1', content)`. -/
def subScanFrom (s : List Char) : List Char := subScan patFromSharedDot replFromSharedDot s

/-- `re.sub(r'import shared\.(\w+)', r'from . import shared.\1', content)`. -/
def subScanImport (s : List Char) : List Char := subScan patImportSharedDot replImportSharedDot s

/-- `OpenCodeAdapter._rewrite_shared_imports`: the `from shared.X` rewrite
followed by the `import shared.X` rewrite. -/
def OpenCodeAdapter.rewrite_shared_imports (content : List Char) : List Char :=
  subScanImport (subScanFrom content)

/-- `OpenCodeAdapter._bundle_shared_modules`: collect the shared files and
build the `modules` dict; `.py` contents go through `_rewrite_shared_imports`. -/
def OpenCodeAdapter.bundle_shared_modules (root : SharedRoot) :
    List (List Char × List Char) :=
  foldUpdate [] (bundleRawWith OpenCodeAdapter.rewrite_shared_imports root)

/-- `OpenCodeAdapter.transform_skill`: base transformation, then merge the
bundled shared modules under `shared/` when the scripts reference them. -/
def OpenCodeAdapter.transform_skill (skill_name : List Char) (src : SkillSource)
    (root : SharedRoot) : Option SkillOutput :=
  match base_transform_skill (fun c => OpenCodeAdapter.transform_skill_md c skill_name) src with
  | none => none
  | some out =>
    some (if OpenCodeAdapter.needs_shared_modules out.scripts then
      { out with scripts := foldUpdate out.scripts
                              ((OpenCodeAdapter.bundle_shared_modules root).map
            fun pc => (sharedSlash ++ pc.1, FileContent.str pc.2)) }
    else out)

/-! ## Codex adapter (`codex.py`) -/

def CodexAdapter.cli_name : List Char := "codex".data

def CodexAdapter.templates_dir_name : List Char := "assets".data

def CodexAdapter.docs_dir_name : List Char := "references".data

/-- `CodexAdapter.default_install_path`: the fixed project-local `.codex/skills`. -/
def CodexAdapter.default_install_path (cwd : List (List Char)) : List (List Char) :=
  cwd ++ [(".codex").data, ("skills").data]

def cxHeading : List Char := "## Codex CLI Usage".data

def cxSec1 : List Char := "\n\n---\n\n## Codex CLI Usage\n\nThis skill is compatible with OpenAI Codex CLI. To use:\n\n```bash\n# Enable skills in Codex\ncodex --enable skills\n\n# The skill is automatically loaded from .codex/skills/".data
def cxSec2 : List Char := "/\n\n# To run validation scripts manually:\ncd .codex/skills/".data
def cxSec3 : List Char := "/scripts\npython validate_*.py path/to/your/file\n```\n\n### Directory Structure\n\nCodex CLI uses slightly different directory names:\n- `assets/` - Code templates (called `templates/` in Claude Code)\n- `references/` - Documentation (called `docs/` in Claude Code)\n- `scripts/` - Validation scripts\n\nSee `scripts/README.md` for validation script usage.\n".data

/-- The `codex_section` f-string with `skill_name` spliced in. -/
def CodexAdapter.codex_section (skill_name : List Char) : List Char :=
  cxSec1 ++ skill_name ++ cxSec2 ++ skill_name ++ cxSec3

/-- The four directory-reference `str.replace` calls of
`CodexAdapter.transform_skill_md`, in source order. -/
def CodexAdapter.directory_renames (c : List Char) : List Char :=
  let c1 := replaceAll patTemplatesSlash patAssetsSlash c
  let c2 := replaceAll patDocsSlash patReferencesSlash c1
  let c3 := replaceAll patBtTemplates patBtAssets c2
  replaceAll patBtDocs patBtReferences c3

/-- `CodexAdapter.transform_skill_md`: common transforms, the four directory
renames, then append the Codex usage section unless its heading is present. -/
def CodexAdapter.transform_skill_md (content skill_name : List Char) : List Char :=
  let c := CodexAdapter.directory_renames (common_skill_md_transforms content)
  if containsSub cxHeading c then c else c ++ CodexAdapter.codex_section skill_name

/-- `CodexAdapter._needs_shared_modules` (body identical in all three adapters). -/
def CodexAdapter.needs_shared_modules (scripts : List (List Char × FileContent)) : Bool :=
  needsSharedScan scripts

/-- `CodexAdapter._bundle_shared_modules`: same collection as OpenCode but the
file contents are staged unchanged (no import rewriting in `codex.py`). -/
def CodexAdapter.bundle_shared_modules (root : SharedRoot) :
    List (List Char × List Char) :=
  foldUpdate [] (bundleRawWith (fun c => c) root)

/-- `CodexAdapter.transform_skill`. -/
def CodexAdapter.transform_skill (skill_name : List Char) (src : SkillSource)
    (root : SharedRoot) : Option SkillOutput :=
  match base_transform_skill (fun c => CodexAdapter.transform_skill_md c skill_name) src with
  | none => none
  | some out =>
    some (if CodexAdapter.needs_shared_modules out.scripts then
      { out with scripts := foldUpdate out.scripts
                              ((CodexAdapter.bundle_shared_modules root).map
            fun pc => (sharedSlash ++ pc.1, FileContent.str pc.2)) }
    else out)

/-! ## Gemini adapter (`gemini.py`) -/

def GeminiAdapter.cli_name : List Char := "gemini".data

/-- `GeminiAdapter.default_install_path`: the fixed user-home `~/.gemini/skills`. -/
def GeminiAdapter.default_install_path (home : List (List Char)) : List (List Char) :=
  home ++ [(".gemini").data, ("skills").data]

def gmHeading : List Char := "## Gemini CLI Usage".data

def gmSec1 : List Char := "\n\n---\n\n## Gemini CLI Usage\n\nThis skill is compatible with Google Gemini CLI. To use:\n\n```bash\n# Skills are installed to ~/.gemini/skills/".data
def gmSec2 : List Char := "/\n# Gemini CLI automatically discovers and loads them.\n\n# Restart Gemini CLI to load new skills\ngemini\n\n# To run validation scripts manually:\ncd ~/.gemini/skills/".data
def gmSec3 : List Char := "/scripts\npython validate_*.py path/to/your/file\n```\n\n### Features\n\nGemini CLI with this skill provides:\n- Automatic skill discovery from ~/.gemini/skills/\n- 1M+ token context window (Gemini 2.5 Pro)\n- Built-in Google Search grounding\n- MCP extensibility\n\n### Shared Skills\n\nYou can share skills between Gemini CLI and Claude Code by symlinking:\n\n```bash\nln -s ~/.gemini/skills/".data
def gmSec4 : List Char := " ~/.claude/skills/".data
def gmSec5 : List Char := "\n```\n\nSee `scripts/README.md` for validation script usage.\n".data

/-- The `gemini_section` f-string with `skill_name` spliced in (four splices). -/
def GeminiAdapter.gemini_section (skill_name : List Char) : List Char :=
  gmSec1 ++ skill_name ++ gmSec2 ++ skill_name ++ gmSec3 ++ skill_name ++ gmSec4
    ++ skill_name ++ gmSec5

/-- `GeminiAdapter.transform_skill_md`: common transforms, then append the
Gemini usage section unless its heading is already present. -/
def GeminiAdapter.transform_skill_md (content skill_name : List Char) : List Char :=
  let c := common_skill_md_transforms content
  if containsSub gmHeading c then c else c ++ GeminiAdapter.gemini_section skill_name

/-- `GeminiAdapter._needs_shared_modules` (body identical in all three adapters). -/
def GeminiAdapter.needs_shared_modules (scripts : List (List Char × FileContent)) : Bool :=
  needsSharedScan scripts

/-- `GeminiAdapter._bundle_shared_modules`: contents staged unchanged, like Codex. -/
def GeminiAdapter.bundle_shared_modules (root : SharedRoot) :
    List (List Char × List Char) :=
  foldUpdate [] (bundleRawWith (fun c => c) root)

/-- `GeminiAdapter.transform_skill`. -/
def GeminiAdapter.transform_skill (skill_name : List Char) (src : SkillSource)
    (root : SharedRoot) : Option SkillOutput :=
  match base_transform_skill (fun c => GeminiAdapter.transform_skill_md c skill_name) src with
  | none => none
  | some out =>
    some (if GeminiAdapter.needs_shared_modules out.scripts then
      { out with scripts := foldUpdate out.scripts
                              ((GeminiAdapter.bundle_shared_modules root).map
            fun pc => (sharedSlash ++ pc.1, FileContent.str pc.2)) }
    else out)

/-! ## Characterizations of the string primitives -/

theorem pfx_iff (t s : List Char) : pfx t s = true ↔ ∃ r, s = t ++ r := by
  induction t generalizing s with
  | nil => simp [pfx]
  | cons a as ih =>
    cases s with
    | nil => simp [pfx]
    | cons b bs =>
      simp only [pfx, Bool.and_eq_true, beq_iff_eq, ih]
      constructor
      · rintro ⟨rfl, r, rfl⟩
        exact ⟨r, rfl⟩
      · rintro ⟨r, h⟩
        cases h
        exact ⟨rfl, r, rfl⟩

theorem pfx_self_append (t r : List Char) : pfx t (t ++ r) = true :=
  (pfx_iff _ _).2 ⟨r, rfl⟩

theorem pfx_mono_append {p s : List Char} (r : List Char) (h : pfx p s = true) :
    pfx p (s ++ r) = true := by
  rcases (pfx_iff _ _).1 h with ⟨q, rfl⟩
  exact (pfx_iff _ _).2 ⟨q ++ r, by simp⟩

theorem sfxB_iff (t s : List Char) : sfxB t s = true ↔ ∃ a, s = a ++ t := by
  induction s with
  | nil =>
    simp only [sfxB, List.isEmpty_iff]
    constructor
    · rintro rfl; exact ⟨[], rfl⟩
    · rintro ⟨a, h⟩
      exact (List.append_eq_nil.1 h.symm).2
  | cons c s ih =>
    simp only [sfxB, Bool.or_eq_true, beq_iff_eq, ih]
    constructor
    · rintro (rfl | ⟨a, rfl⟩)
      · exact ⟨[], rfl⟩
      · exact ⟨c :: a, rfl⟩
    · rintro ⟨a, h⟩
      cases a with
      | nil => exact Or.inl (by simpa using h.symm)
      | cons x xs =>
        simp only [List.cons_append, List.cons.injEq] at h
        exact Or.inr ⟨xs, h.2⟩

theorem sfxB_refl (t : List Char) : sfxB t t = true :=
  (sfxB_iff _ _).2 ⟨[], rfl⟩

theorem sfxB_cons {t s : List Char} (c : Char) (h : sfxB t s = true) :
    sfxB t (c :: s) = true := by
  simp only [sfxB, Bool.or_eq_true]
  exact Or.inr h

theorem sfxB_append_left {t s : List Char} (a : List Char) (h : sfxB t s = true) :
    sfxB t (a ++ s) = true := by
  rcases (sfxB_iff _ _).1 h with ⟨q, rfl⟩
  exact (sfxB_iff _ _).2 ⟨a ++ q, by simp⟩

theorem containsSub_iff (t s : List Char) :
    containsSub t s = true ↔ ∃ a b, s = a ++ t ++ b := by
  induction s with
  | nil =>
    simp only [containsSub, List.isEmpty_iff]
    constructor
    · rintro rfl; exact ⟨[], [], rfl⟩
    · rintro ⟨a, b, h⟩
      have hl := congrArg List.length h
      simp only [List.length_nil, List.length_append] at hl
      have : t.length = 0 := by omega
      simpa [List.length_eq_zero] using this
  | cons c s ih =>
    simp only [containsSub, Bool.or_eq_true, pfx_iff, ih]
    constructor
    · rintro (⟨r, h⟩ | ⟨a, b, rfl⟩)
      · exact ⟨[], r, by simpa using h⟩
      · exact ⟨c :: a, b, rfl⟩
    · rintro ⟨a, b, h⟩
      cases a with
      | nil => exact Or.inl ⟨b, by simpa using h⟩
      | cons x xs =>
        simp only [List.cons_append, List.cons.injEq] at h
        exact Or.inr ⟨xs, b, h.2⟩

theorem containsSub_cons {t s : List Char} (c : Char) (h : containsSub t s = true) :
    containsSub t (c :: s) = true := by
  simp only [containsSub, Bool.or_eq_true]
  exact Or.inr h

theorem containsSub_append_right {t b : List Char} (a : List Char)
    (h : containsSub t b = true) : containsSub t (a ++ b) = true := by
  rcases (containsSub_iff _ _).1 h with ⟨x, y, rfl⟩
  exact (containsSub_iff _ _).2 ⟨a ++ x, y, by simp⟩

theorem containsSub_append_left {t a : List Char} (b : List Char)
    (h : containsSub t a = true) : containsSub t (a ++ b) = true := by
  rcases (containsSub_iff _ _).1 h with ⟨x, y, rfl⟩
  exact (containsSub_iff _ _).2 ⟨x, y ++ b, by simp⟩

theorem containsSub_self (t : List Char) : containsSub t t = true :=
  (containsSub_iff _ _).2 ⟨[], [], by simp⟩

theorem pfx_append_cases {p a b : List Char} (h : pfx p (a ++ b) = true) :
    pfx p a = true ∨ ∃ q, p = a ++ q ∧ pfx q b = true := by
  induction a generalizing p with
  | nil => exact Or.inr ⟨p, rfl, by simpa using h⟩
  | cons c a' ih =>
    cases p with
    | nil => exact Or.inl rfl
    | cons d p' =>
      simp only [List.cons_append, pfx, Bool.and_eq_true, beq_iff_eq] at h
      obtain ⟨rfl, h2⟩ := h
      rcases ih h2 with h3 | ⟨q, rfl, h4⟩
      · exact Or.inl (by simp [pfx, h3])
      · exact Or.inr ⟨q, rfl, h4⟩

theorem sfxB_append_cases {t a b : List Char} (h : sfxB t (a ++ b) = true) :
    sfxB t b = true ∨ ∃ q, t = q ++ b ∧ sfxB q a = true := by
  induction a with
  | nil => exact Or.inl (by simpa using h)
  | cons c a' ih =>
    simp only [List.cons_append, sfxB, Bool.or_eq_true, beq_iff_eq] at h
    rcases h with h | h
    · exact Or.inr ⟨c :: a', by simpa using h, sfxB_refl _⟩
    · rcases ih h with h2 | ⟨q, rfl, h3⟩
      · exact Or.inl h2
      · exact Or.inr ⟨q, rfl, sfxB_cons c h3⟩

/-- Decomposing an occurrence in a concatenation: it lies in `a`, lies in `b`,
or spans the boundary with a non-trivial split of `t`. -/
theorem containsSub_split {t a b : List Char} (h : containsSub t (a ++ b) = true) :
    containsSub t a = true ∨ containsSub t b = true ∨
      ∃ k, 0 < k ∧ k < t.length ∧ sfxB (t.take k) a = true ∧ pfx (t.drop k) b = true := by
  induction a with
  | nil => exact Or.inr (Or.inl (by simpa using h))
  | cons c a' ih =>
    simp only [List.cons_append, containsSub, Bool.or_eq_true] at h
    rcases h with h | h
    · have h' : pfx t ((c :: a') ++ b) = true := h
      rcases pfx_append_cases h' with h1 | ⟨q, rfl, h2⟩
      · rcases (pfx_iff _ _).1 h1 with ⟨r, hr⟩
        exact Or.inl ((containsSub_iff _ _).2 ⟨[], r, by simpa using hr⟩)
      · cases q with
        | nil => exact Or.inl (by simpa using containsSub_self (c :: a'))
        | cons x xs =>
          refine Or.inr (Or.inr ⟨(c :: a').length, by simp, ?_, ?_, ?_⟩)
          · simp [List.length_append]
          · rw [List.take_left]
            exact sfxB_refl _
          · rw [List.drop_left]
            exact h2
    · rcases ih h with h1 | h1 | ⟨k, hk0, hkt, h2, h3⟩
      · exact Or.inl (containsSub_cons c h1)
      · exact Or.inr (Or.inl h1)
      · exact Or.inr (Or.inr ⟨k, hk0, hkt, sfxB_cons c h2, h3⟩)

theorem containsTwoSub_iff {t : List Char} (ht : t ≠ []) (s : List Char) :
    containsTwoSub t s = true ↔
      ∃ a b, s = a ++ t ++ b ∧ containsSub t (t.drop 1 ++ b) = true := by
  induction s with
  | nil =>
    simp only [containsTwoSub, Bool.false_eq_true, false_iff]
    rintro ⟨a, b, h, -⟩
    have hl := congrArg List.length h
    simp only [List.length_nil, List.length_append] at hl
    have : t.length = 0 := by omega
    exact ht (List.length_eq_zero.1 this)
  | cons c s ih =>
    simp only [containsTwoSub]
    by_cases hp : pfx t (c :: s) = true
    · rw [if_pos hp]
      rcases (pfx_iff _ _).1 hp with ⟨r, hr⟩
      constructor
      · intro h
        refine ⟨[], r, by simpa using hr, ?_⟩
        cases t with
        | nil => exact absurd rfl ht
        | cons x xs =>
          simp only [List.cons_append, List.cons.injEq] at hr
          simpa [hr.2.symm] using h
      · rintro ⟨a, b, hab, h2⟩
        cases a with
        | nil =>
          simp only [List.nil_append] at hab
          cases t with
          | nil => exact absurd rfl ht
          | cons x xs =>
            simp only [List.cons_append, List.cons.injEq] at hab
            simpa [hab.2] using h2
        | cons y ys =>
          simp only [List.cons_append, List.cons.injEq] at hab
          exact hab.2 ▸ (containsSub_iff _ _).2 ⟨ys, b, rfl⟩
    · rw [if_neg hp]
      rw [ih]
      constructor
      · rintro ⟨a, b, rfl, h2⟩
        exact ⟨c :: a, b, rfl, h2⟩
      · rintro ⟨a, b, hab, h2⟩
        cases a with
        | nil =>
          exfalso
          apply hp
          simp only [List.nil_append, List.append_assoc] at hab
          rw [show c :: s = t ++ b from by simpa using hab]
          exact pfx_self_append t b
        | cons y ys =>
          simp only [List.cons_append, List.cons.injEq] at hab
          exact ⟨ys, b, hab.2, h2⟩

theorem containsTwoSub_of_two {t : List Char} (ht : t ≠ []) {a b : List Char}
    (h : containsSub t (t.drop 1 ++ b) = true) :
    containsTwoSub t (a ++ t ++ b) = true :=
  (containsTwoSub_iff ht _).2 ⟨a, b, rfl, h⟩

theorem containsSub_of_two {t s : List Char} (ht : t ≠ [])
    (h : containsTwoSub t s = true) : containsSub t s = true := by
  rcases (containsTwoSub_iff ht s).1 h with ⟨a, b, rfl, -⟩
  exact (containsSub_iff _ _).2 ⟨a, b, rfl⟩

/-! ## Basic equations for `replaceAll` and the regex scanners -/

theorem splitWords_snd_length (l : List Char) : (splitWords l).2.length ≤ l.length := by
  induction l with
  | nil => simp [splitWords]
  | cons c rest ih =>
    simp only [splitWords]
    by_cases h : isWordChar c = true
    · simp only [h, if_true]
      exact Nat.le_succ_of_le ih
    · simp [h]

theorem replaceAllGo_fuel (t r : List Char) :
    ∀ n, ∀ s : List Char, s.length ≤ n → replaceAllGo t r n s = replaceAll t r s := by
  intro n
  induction n using Nat.strong_induction_on with
  | _ n ih =>
    intro s hs
    match n, s with
    | 0, s =>
      have hnil : s = [] := List.length_eq_zero.1 (Nat.le_zero.1 hs)
      subst hnil
      rfl
    | n + 1, [] => rfl
    | n + 1, c :: s =>
      simp only [List.length_cons] at hs
      have hsn : s.length ≤ n := Nat.succ_le_succ_iff.1 hs
      have e1 : replaceAllGo t r (n + 1) (c :: s) =
          if pfx t (c :: s) then r ++ replaceAllGo t r n (List.drop (t.length - 1) s)
          else c :: replaceAllGo t r n s := rfl
      have e2 : replaceAll t r (c :: s) =
          if pfx t (c :: s) then
            r ++ replaceAllGo t r s.length (List.drop (t.length - 1) s)
          else c :: replaceAllGo t r s.length s := rfl
      rw [e1, e2]
      have hd : (List.drop (t.length - 1) s).length ≤ s.length := by
        simp only [List.length_drop]
        omega
      by_cases hp : pfx t (c :: s) = true
      · rw [if_pos hp, if_pos hp,
          ih n (Nat.lt_succ_self n) _ (Nat.le_trans hd hsn),
          ih s.length (Nat.lt_succ_of_le hsn) _ hd]
      · rw [if_neg hp, if_neg hp, ih n (Nat.lt_succ_self n) s hsn]
        rfl

theorem replaceAll_cons (t r : List Char) (c : Char) (s : List Char) :
    replaceAll t r (c :: s) =
      if pfx t (c :: s) then r ++ replaceAll t r (List.drop (t.length - 1) s)
      else c :: replaceAll t r s := by
  have e1 : replaceAll t r (c :: s) =
      if pfx t (c :: s) then r ++ replaceAllGo t r s.length (List.drop (t.length - 1) s)
      else c :: replaceAllGo t r s.length s := rfl
  rw [e1]
  have hd : (List.drop (t.length - 1) s).length ≤ s.length := by
    simp only [List.length_drop]
    omega
  by_cases hp : pfx t (c :: s) = true
  · rw [if_pos hp, if_pos hp, replaceAllGo_fuel t r s.length _ hd]
  · rw [if_neg hp, if_neg hp]
    rfl

theorem replaceAll_cons_pos {t rest : List Char} (r : List Char) (ht : t ≠ [])
    (c : Char) (s : List Char) (h : c :: s = t ++ rest) :
    replaceAll t r (c :: s) = r ++ replaceAll t r rest := by
  have hp : pfx t (c :: s) = true := (pfx_iff _ _).2 ⟨rest, h⟩
  rw [replaceAll_cons, if_pos hp]
  congr 2
  cases t with
  | nil => exact absurd rfl ht
  | cons x xs =>
    simp only [List.cons_append, List.cons.injEq] at h
    rw [h.2]
    simp

theorem replaceAll_cons_neg {t : List Char} (r : List Char) (c : Char) (s : List Char)
    (h : pfx t (c :: s) = false) :
    replaceAll t r (c :: s) = c :: replaceAll t r s := by
  rw [replaceAll_cons, if_neg (by simp [h])]

theorem replaceAll_nil (t r : List Char) : replaceAll t r [] = [] := rfl

theorem replaceAll_id {t : List Char} (r : List Char) :
    ∀ {s : List Char}, containsSub t s = false → replaceAll t r s = s := by
  intro s
  induction s with
  | nil => intro _; rfl
  | cons c s ih =>
    intro h
    simp only [containsSub, Bool.or_eq_false_iff] at h
    rw [replaceAll_cons_neg r c s h.1, ih h.2]

theorem subScanGo_fuel (pat rep : List Char) :
    ∀ n, ∀ s : List Char, s.length ≤ n → subScanGo pat rep n s = subScan pat rep s := by
  intro n
  induction n using Nat.strong_induction_on with
  | _ n ih =>
    intro s hs
    match n, s with
    | 0, s =>
      have hnil : s = [] := List.length_eq_zero.1 (Nat.le_zero.1 hs)
      subst hnil
      rfl
    | n + 1, [] => rfl
    | n + 1, c :: s =>
      simp only [List.length_cons] at hs
      have hsn : s.length ≤ n := Nat.succ_le_succ_iff.1 hs
      have e1 : subScanGo pat rep (n + 1) (c :: s) =
          if pfx pat (c :: s) then
            (fun p => if p.1.isEmpty then c :: subScanGo pat rep n s
              else rep ++ p.1 ++ subScanGo pat rep n p.2)
              (splitWords (List.drop (pat.length - 1) s))
          else c :: subScanGo pat rep n s := rfl
      have e2 : subScan pat rep (c :: s) =
          if pfx pat (c :: s) then
            (fun p => if p.1.isEmpty then c :: subScanGo pat rep s.length s
              else rep ++ p.1 ++ subScanGo pat rep s.length p.2)
              (splitWords (List.drop (pat.length - 1) s))
          else c :: subScanGo pat rep s.length s := rfl
      rw [e1, e2]
      have hw : (splitWords (List.drop (pat.length - 1) s)).2.length ≤ s.length := by
        refine Nat.le_trans (splitWords_snd_length _) ?_
        simp only [List.length_drop]
        omega
      by_cases hp : pfx pat (c :: s) = true
      · rw [if_pos hp, if_pos hp]
        by_cases he : (splitWords (List.drop (pat.length - 1) s)).1.isEmpty = true
        · simp only [he, if_true]
          rw [ih n (Nat.lt_succ_self n) s hsn]
          rfl
        · simp only [he, Bool.false_eq_true, if_false]
          rw [ih n (Nat.lt_succ_self n) _ (Nat.le_trans hw hsn),
            ih s.length (Nat.lt_succ_of_le hsn) _ hw]
      · rw [if_neg hp, if_neg hp, ih n (Nat.lt_succ_self n) s hsn]
        rfl

theorem subScan_cons (pat rep : List Char) (c : Char) (s : List Char) :
    subScan pat rep (c :: s) =
      if pfx pat (c :: s) then
        (fun p => if p.1.isEmpty then c :: subScan pat rep s
          else rep ++ p.1 ++ subScan pat rep p.2)
          (splitWords (List.drop (pat.length - 1) s))
      else c :: subScan pat rep s := by
  have e2 : subScan pat rep (c :: s) =
      if pfx pat (c :: s) then
        (fun p => if p.1.isEmpty then c :: subScanGo pat rep s.length s
          else rep ++ p.1 ++ subScanGo pat rep s.length p.2)
          (splitWords (List.drop (pat.length - 1) s))
      else c :: subScanGo pat rep s.length s := rfl
  rw [e2]
  have hw : (splitWords (List.drop (pat.length - 1) s)).2.length ≤ s.length := by
    refine Nat.le_trans (splitWords_snd_length _) ?_
    simp only [List.length_drop]
    omega
  by_cases hp : pfx pat (c :: s) = true
  · rw [if_pos hp, if_pos hp]
    by_cases he : (splitWords (List.drop (pat.length - 1) s)).1.isEmpty = true
    · simp only [he, if_true]
      rfl
    · simp only [he, Bool.false_eq_true, if_false]
      rw [subScanGo_fuel pat rep s.length _ hw]
  · rw [if_neg hp, if_neg hp]
    rfl

/-! ## Helper characterization of `_needs_shared_modules` -/

theorem needsSharedScan_iff (scripts : List (List Char × FileContent)) :
    needsSharedScan scripts = true ↔
      ∃ p s, (p, FileContent.str s) ∈ scripts ∧
        (containsSub patFromShared s = true ∨ containsSub patImportShared s = true ∨
         containsSub patLspClient s = true ∨ containsSub patCodeAnalyzer s = true) := by
  rw [needsSharedScan, List.any_eq_true]
  constructor
  · rintro ⟨⟨p, c⟩, hmem, hc⟩
    cases c with
    | str s =>
      refine ⟨p, s, hmem, ?_⟩
      simp only [Bool.or_eq_true] at hc
      tauto
    | bytes b => simp at hc
  · rintro ⟨p, s, hmem, hc⟩
    refine ⟨(p, FileContent.str s), hmem, ?_⟩
    simp only [Bool.or_eq_true]
    tauto

/-! ## Claim C5 -/

/-- C5: for every adapter, a missing shared-module subtree (`lsp-engine` or
`code_analyzer`) is not an error: `_bundle_shared_modules` treats it exactly
like an existing empty subtree, collects only from the subtrees that exist,
and returns the empty mapping when neither exists. -/
theorem c5_missing_shared_subtree_is_empty_contribution :
    ((∀ ca, OpenCodeAdapter.bundle_shared_modules ⟨none, ca⟩ =
        OpenCodeAdapter.bundle_shared_modules ⟨some [], ca⟩) ∧
     (∀ l, OpenCodeAdapter.bundle_shared_modules ⟨l, none⟩ =
        OpenCodeAdapter.bundle_shared_modules ⟨l, some []⟩) ∧
     OpenCodeAdapter.bundle_shared_modules ⟨none, none⟩ = []) ∧
    ((∀ ca, CodexAdapter.bundle_shared_modules ⟨none, ca⟩ =
        CodexAdapter.bundle_shared_modules ⟨some [], ca⟩) ∧
     (∀ l, CodexAdapter.bundle_shared_modules ⟨l, none⟩ =
        CodexAdapter.bundle_shared_modules ⟨l, some []⟩) ∧
     CodexAdapter.bundle_shared_modules ⟨none, none⟩ = []) ∧
    ((∀ ca, GeminiAdapter.bundle_shared_modules ⟨none, ca⟩ =
        GeminiAdapter.bundle_shared_modules ⟨some [], ca⟩) ∧
     (∀ l, GeminiAdapter.bundle_shared_modules ⟨l, none⟩ =
        GeminiAdapter.bundle_shared_modules ⟨l, some []⟩) ∧
     GeminiAdapter.bundle_shared_modules ⟨none, none⟩ = []) :=
  ⟨⟨fun _ => rfl, fun _ => rfl, rfl⟩,
   ⟨fun _ => rfl, fun _ => rfl, rfl⟩,
   ⟨fun _ => rfl, fun _ => rfl, rfl⟩⟩

/-! ## Claim C6 -/

/-- C6: `OpenCodeAdapter.default_install_path` returns the pre-existing
compatible `<cwd>/.claude/skills` whenever it exists (in particular when
`<cwd>/.opencode/skill` does not), and `<cwd>/.opencode/skill` whenever
`<cwd>/.claude/skills` does not exist. -/
theorem c6_opencode_install_path_precedence (cwd : List (List Char)) (fs : FsState) :
    (fs.claude_skills_exists = true → fs.opencode_skill_exists = false →
      OpenCodeAdapter.default_install_path cwd fs =
        cwd ++ [(".claude").data, ("skills").data]) ∧
    (fs.claude_skills_exists = false →
      OpenCodeAdapter.default_install_path cwd fs =
        cwd ++ [(".opencode").data, ("skill").data]) := by
  constructor
  · intro h _
    simp [OpenCodeAdapter.default_install_path, h]
  · intro h
    simp [OpenCodeAdapter.default_install_path, h]

/-- Witness for C6 at a concrete filesystem state. -/
theorem c6_opencode_install_path_precedence_witness :
    OpenCodeAdapter.default_install_path [] ⟨true, false⟩ =
      [(".claude").data, ("skills").data] ∧
    OpenCodeAdapter.default_install_path [] ⟨false, true⟩ =
      [(".opencode").data, ("skill").data] :=
  ⟨(c6_opencode_install_path_precedence [] ⟨true, false⟩).1 rfl rfl,
   (c6_opencode_install_path_precedence [] ⟨false, true⟩).2 rfl⟩

/-! ## Claim C9 -/

/-- C9: the result of `OpenCodeAdapter.default_install_path` does not depend
on whether `<cwd>/.opencode/skill` exists: two filesystem states agreeing on
the existence of `<cwd>/.claude/skills` yield the same path. -/
theorem c9_opencode_install_path_ignores_opencode_dir (cwd : List (List Char))
    (fs1 fs2 : FsState) (h : fs1.claude_skills_exists = fs2.claude_skills_exists) :
    OpenCodeAdapter.default_install_path cwd fs1 =
      OpenCodeAdapter.default_install_path cwd fs2 := by
  simp only [OpenCodeAdapter.default_install_path, h]

/-- Witness for C9 at two concrete filesystem states differing only in the
existence of `.opencode/skill`. -/
theorem c9_opencode_install_path_ignores_opencode_dir_witness :
    OpenCodeAdapter.default_install_path [] ⟨true, true⟩ =
      OpenCodeAdapter.default_install_path [] ⟨true, false⟩ :=
  c9_opencode_install_path_ignores_opencode_dir [] ⟨true, true⟩ ⟨true, false⟩ rfl

/-! ## Claim C10 -/

/-- C10: each adapter's `_needs_shared_modules` returns `True` exactly when
some `str`-valued script entry contains one of the four marker substrings
`"from shared"`, `"import shared"`, `"lsp_client"`, `"code_analyzer"`;
non-`str` (e.g. binary) entries never trigger bundling. -/
theorem c10_needs_shared_modules_characterization
    (scripts : List (List Char × FileContent)) :
    (OpenCodeAdapter.needs_shared_modules scripts = true ↔
      ∃ p s, (p, FileContent.str s) ∈ scripts ∧
        (containsSub patFromShared s = true ∨ containsSub patImportShared s = true ∨
         containsSub patLspClient s = true ∨ containsSub patCodeAnalyzer s = true)) ∧
    (CodexAdapter.needs_shared_modules scripts = true ↔
      ∃ p s, (p, FileContent.str s) ∈ scripts ∧
        (containsSub patFromShared s = true ∨ containsSub patImportShared s = true ∨
         containsSub patLspClient s = true ∨ containsSub patCodeAnalyzer s = true)) ∧
    (GeminiAdapter.needs_shared_modules scripts = true ↔
      ∃ p s, (p, FileContent.str s) ∈ scripts ∧
        (containsSub patFromShared s = true ∨ containsSub patImportShared s = true ∨
         containsSub patLspClient s = true ∨ containsSub patCodeAnalyzer s = true)) :=
  ⟨needsSharedScan_iff scripts, needsSharedScan_iff scripts, needsSharedScan_iff scripts⟩

/-! ## Dictionary lemmas -/

theorem dictUpdate_cons_eq {α : Type} {k' k : List Char} (h : k' = k)
    (v' v : α) (rest : List (List Char × α)) :
    dictUpdate ((k', v') :: rest) k v = (k, v) :: rest := by
  simp [dictUpdate, h]

theorem dictUpdate_cons_ne {α : Type} {k' k : List Char} (h : ¬k' = k)
    (v' v : α) (rest : List (List Char × α)) :
    dictUpdate ((k', v') :: rest) k v = (k', v') :: dictUpdate rest k v := by
  simp [dictUpdate, h]

theorem dictLookup_cons_eq {α : Type} {k' k : List Char} (h : k' = k)
    (v' : α) (rest : List (List Char × α)) :
    dictLookup ((k', v') :: rest) k = some v' := by
  simp [dictLookup, h]

theorem dictLookup_cons_ne {α : Type} {k' k : List Char} (h : ¬k' = k)
    (v' : α) (rest : List (List Char × α)) :
    dictLookup ((k', v') :: rest) k = dictLookup rest k := by
  simp [dictLookup, h]

theorem dictLookup_update_self {α : Type} (m : List (List Char × α)) (k : List Char)
    (v : α) : dictLookup (dictUpdate m k v) k = some v := by
  induction m with
  | nil => simp [dictUpdate, dictLookup]
  | cons kv rest ih =>
    obtain ⟨k', v'⟩ := kv
    by_cases h : k' = k
    · rw [dictUpdate_cons_eq h, dictLookup_cons_eq rfl]
    · rw [dictUpdate_cons_ne h, dictLookup_cons_ne h]
      exact ih

theorem dictLookup_update_other {α : Type} (m : List (List Char × α)) {k k' : List Char}
    (v : α) (h : k ≠ k') : dictLookup (dictUpdate m k v) k' = dictLookup m k' := by
  induction m with
  | nil => simp [dictUpdate, dictLookup, h]
  | cons kv rest ih =>
    obtain ⟨k0, v0⟩ := kv
    by_cases h0 : k0 = k
    · rw [dictUpdate_cons_eq h0, dictLookup_cons_ne h, dictLookup_cons_ne (h0 ▸ h)]
    · rw [dictUpdate_cons_ne h0]
      by_cases h1 : k0 = k'
      · rw [dictLookup_cons_eq h1, dictLookup_cons_eq h1]
      · rw [dictLookup_cons_ne h1, dictLookup_cons_ne h1]
        exact ih

theorem mem_dictKeys_update {α : Type} (m : List (List Char × α)) (k : List Char)
    (v : α) {k0 : List Char} (h : k0 ∈ dictKeys m) :
    k0 ∈ dictKeys (dictUpdate m k v) := by
  induction m with
  | nil => simp [dictKeys] at h
  | cons kv rest ih =>
    obtain ⟨k', v'⟩ := kv
    simp only [dictKeys, List.map_cons, List.mem_cons] at h
    by_cases he : k' = k
    · rw [dictUpdate_cons_eq he]
      simp only [dictKeys, List.map_cons, List.mem_cons]
      rcases h with h | h
      · exact Or.inl (h.trans he)
      · exact Or.inr h
    · rw [dictUpdate_cons_ne he]
      simp only [dictKeys, List.map_cons, List.mem_cons]
      rcases h with h | h
      · exact Or.inl h
      · exact Or.inr (ih h)

theorem self_mem_dictKeys_update {α : Type} (m : List (List Char × α)) (k : List Char)
    (v : α) : k ∈ dictKeys (dictUpdate m k v) := by
  induction m with
  | nil => simp [dictUpdate, dictKeys]
  | cons kv rest ih =>
    obtain ⟨k', v'⟩ := kv
    by_cases he : k' = k
    · rw [dictUpdate_cons_eq he]
      simp only [dictKeys, List.map_cons]
      exact List.mem_cons_self _ _
    · rw [dictUpdate_cons_ne he]
      simp only [dictKeys, List.map_cons, List.mem_cons]
      exact Or.inr ih

theorem mem_dictKeys_update_cases {α : Type} (m : List (List Char × α)) (k : List Char)
    (v : α) {k0 : List Char} (h : k0 ∈ dictKeys (dictUpdate m k v)) :
    k0 ∈ dictKeys m ∨ k0 = k := by
  induction m with
  | nil => simpa [dictUpdate, dictKeys] using h
  | cons kv rest ih =>
    obtain ⟨k', v'⟩ := kv
    by_cases he : k' = k
    · rw [dictUpdate_cons_eq he] at h
      simp only [dictKeys, List.map_cons, List.mem_cons] at h ⊢
      tauto
    · rw [dictUpdate_cons_ne he] at h
      simp only [dictKeys, List.map_cons, List.mem_cons] at h ⊢
      rcases h with h | h
      · exact Or.inl (Or.inl h)
      · rcases ih h with h | h
        · exact Or.inl (Or.inr h)
        · exact Or.inr h

theorem nodup_dictKeys_update {α : Type} (m : List (List Char × α)) (k : List Char)
    (v : α) (h : (dictKeys m).Nodup) : (dictKeys (dictUpdate m k v)).Nodup := by
  induction m with
  | nil => simp [dictUpdate, dictKeys]
  | cons kv rest ih =>
    obtain ⟨k', v'⟩ := kv
    simp only [dictKeys, List.map_cons, List.nodup_cons] at h
    by_cases he : k' = k
    · rw [dictUpdate_cons_eq he]
      simp only [dictKeys, List.map_cons, List.nodup_cons]
      exact ⟨he ▸ h.1, h.2⟩
    · rw [dictUpdate_cons_ne he]
      simp only [dictKeys, List.map_cons, List.nodup_cons]
      refine ⟨?_, ih h.2⟩
      intro hmem
      rcases mem_dictKeys_update_cases rest k v hmem with h2 | h2
      · exact h.1 h2
      · exact he h2

theorem nodup_dictKeys_foldUpdate {α : Type} (l : List (List Char × α)) :
    ∀ m : List (List Char × α), (dictKeys m).Nodup →
      (dictKeys (foldUpdate m l)).Nodup := by
  induction l with
  | nil => intro m hm; exact hm
  | cons kv l ih =>
    intro m hm
    exact ih (dictUpdate m kv.1 kv.2) (nodup_dictKeys_update m kv.1 kv.2 hm)

theorem mem_dictKeys_foldUpdate {α : Type} (l : List (List Char × α)) :
    ∀ (m : List (List Char × α)) {k0 : List Char}, k0 ∈ dictKeys m →
      k0 ∈ dictKeys (foldUpdate m l) := by
  induction l with
  | nil => intro m _ hm; exact hm
  | cons kv l ih =>
    intro m k0 hm
    exact ih (dictUpdate m kv.1 kv.2) (mem_dictKeys_update m kv.1 kv.2 hm)

theorem entry_mem_dictKeys_foldUpdate {α : Type} (l : List (List Char × α)) :
    ∀ (m : List (List Char × α)) {k : List Char} {v : α}, (k, v) ∈ l →
      k ∈ dictKeys (foldUpdate m l) := by
  induction l with
  | nil => intro m k v hm; simp at hm
  | cons kv l ih =>
    intro m k v hm
    rcases List.mem_cons.1 hm with h | h
    · subst h
      exact mem_dictKeys_foldUpdate l _ (self_mem_dictKeys_update m k v)
    · exact ih (dictUpdate m kv.1 kv.2) h

theorem dictLookup_foldUpdate_not_mem {α : Type} (l : List (List Char × α)) :
    ∀ (m : List (List Char × α)) {k : List Char}, k ∉ l.map Prod.fst →
      dictLookup (foldUpdate m l) k = dictLookup m k := by
  induction l with
  | nil => intro m _ _; rfl
  | cons kv l ih =>
    intro m k hk
    simp only [List.map_cons, List.mem_cons] at hk
    push_neg at hk
    rw [show foldUpdate m (kv :: l) = foldUpdate (dictUpdate m kv.1 kv.2) l from rfl,
      ih _ hk.2, dictLookup_update_other m kv.2 (fun he => hk.1 he.symm)]

theorem dictLookup_foldUpdate_nodup {α : Type} (l : List (List Char × α)) :
    ∀ (m : List (List Char × α)) {k : List Char} {v : α},
      (l.map Prod.fst).Nodup → (k, v) ∈ l →
      dictLookup (foldUpdate m l) k = some v := by
  induction l with
  | nil => intro m k v _ hm; simp at hm
  | cons kv l ih =>
    intro m k v hnd hm
    simp only [List.map_cons, List.nodup_cons] at hnd
    rcases List.mem_cons.1 hm with h | h
    · subst h
      rw [show foldUpdate m ((k, v) :: l) = foldUpdate (dictUpdate m k v) l from rfl,
        dictLookup_foldUpdate_not_mem l _ hnd.1, dictLookup_update_self]
    · exact ih (dictUpdate m kv.1 kv.2) hnd.2 h

theorem dictLookup_mem {α : Type} (m : List (List Char × α)) {k : List Char} {v : α}
    (h : dictLookup m k = some v) : (k, v) ∈ m := by
  induction m with
  | nil => simp [dictLookup] at h
  | cons kv rest ih =>
    obtain ⟨k0, v0⟩ := kv
    by_cases he : k0 = k
    · subst he
      rw [dictLookup_cons_eq rfl] at h
      cases h
      exact List.mem_cons_self _ _
    · rw [dictLookup_cons_ne he] at h
      exact List.mem_cons_of_mem _ (ih h)

/-- The merge step `output.scripts[f"shared/{path}"] = content` performed for
every bundled module: key uniqueness is preserved and each bundled value ends
up at its `shared/`-prefixed key. -/
theorem merge_step {scripts0 : List (List Char × FileContent)}
    {bundleD : List (List Char × List Char)}
    (h0 : (dictKeys scripts0).Nodup) (hbk : (dictKeys bundleD).Nodup) :
    (dictKeys (foldUpdate scripts0
      (bundleD.map fun pc => (sharedSlash ++ pc.1, FileContent.str pc.2)))).Nodup ∧
    ∀ p v, dictLookup bundleD p = some v →
      dictLookup (foldUpdate scripts0
          (bundleD.map fun pc => (sharedSlash ++ pc.1, FileContent.str pc.2)))
        (sharedSlash ++ p) = some (FileContent.str v) := by
  constructor
  · exact nodup_dictKeys_foldUpdate _ scripts0 h0
  · intro p v hl
    have hmem : (p, v) ∈ bundleD := dictLookup_mem bundleD hl
    have hmem2 : (sharedSlash ++ p, FileContent.str v) ∈
        bundleD.map fun pc => (sharedSlash ++ pc.1, FileContent.str pc.2) :=
      List.mem_map.2 ⟨(p, v), hmem, rfl⟩
    have hknd : ((bundleD.map fun pc =>
        (sharedSlash ++ pc.1, FileContent.str pc.2)).map Prod.fst).Nodup := by
      rw [List.map_map]
      have : (Prod.fst ∘ fun pc : List Char × List Char =>
          (sharedSlash ++ pc.1, FileContent.str pc.2)) =
          (fun p => sharedSlash ++ p) ∘ Prod.fst := rfl
      rw [this, ← List.map_map]
      refine List.Nodup.map ?_ hbk
      intro a b hab
      exact List.append_cancel_left hab
    exact dictLookup_foldUpdate_nodup _ scripts0 hknd hmem2

theorem bundle_keys_nodup (rwf : List Char → List Char) (root : SharedRoot) :
    (dictKeys (foldUpdate [] (bundleRawWith rwf root))).Nodup :=
  nodup_dictKeys_foldUpdate _ [] (by simp [dictKeys])

/-! ## Claim C7 -/

/-- C7: in every adapter's `transform_skill`, a bundled file staged under
`shared/<relpath>` overwrites any existing entry at exactly that key (last
writer wins): the final mapping keeps unique keys and holds the bundled
content at that key; the merge is total, so no conflict error exists. -/
theorem c7_bundled_write_wins (skill_name : List Char) (src : SkillSource)
    (root : SharedRoot) (out : SkillOutput) (hnodup : (dictKeys src.scripts).Nodup) :
    (OpenCodeAdapter.transform_skill skill_name src root = some out →
      (dictKeys out.scripts).Nodup ∧
      (OpenCodeAdapter.needs_shared_modules src.scripts = true →
        ∀ p v, dictLookup (OpenCodeAdapter.bundle_shared_modules root) p = some v →
          dictLookup out.scripts (sharedSlash ++ p) = some (FileContent.str v))) ∧
    (CodexAdapter.transform_skill skill_name src root = some out →
      (dictKeys out.scripts).Nodup ∧
      (CodexAdapter.needs_shared_modules src.scripts = true →
        ∀ p v, dictLookup (CodexAdapter.bundle_shared_modules root) p = some v →
          dictLookup out.scripts (sharedSlash ++ p) = some (FileContent.str v))) ∧
    (GeminiAdapter.transform_skill skill_name src root = some out →
      (dictKeys out.scripts).Nodup ∧
      (GeminiAdapter.needs_shared_modules src.scripts = true →
        ∀ p v, dictLookup (GeminiAdapter.bundle_shared_modules root) p = some v →
          dictLookup out.scripts (sharedSlash ++ p) = some (FileContent.str v))) := by
  refine ⟨?_, ?_, ?_⟩
  · intro h
    simp only [OpenCodeAdapter.transform_skill, base_transform_skill] at h
    cases hm : src.manifest with
    | none =>
      rw [hm] at h
      simp at h
    | some md =>
      rw [hm] at h
      simp only [Option.some.injEq] at h
      by_cases hn : OpenCodeAdapter.needs_shared_modules src.scripts = true
      · rw [if_pos hn] at h
        subst h
        have hbk : (dictKeys (OpenCodeAdapter.bundle_shared_modules root)).Nodup :=
          bundle_keys_nodup OpenCodeAdapter.rewrite_shared_imports root
        have hms := @merge_step src.scripts
          (OpenCodeAdapter.bundle_shared_modules root) hnodup hbk
        exact ⟨hms.1, fun _ => hms.2⟩
      · rw [if_neg hn] at h
        subst h
        exact ⟨hnodup, fun hn2 => absurd hn2 hn⟩
  · intro h
    simp only [CodexAdapter.transform_skill, base_transform_skill] at h
    cases hm : src.manifest with
    | none =>
      rw [hm] at h
      simp at h
    | some md =>
      rw [hm] at h
      simp only [Option.some.injEq] at h
      by_cases hn : CodexAdapter.needs_shared_modules src.scripts = true
      · rw [if_pos hn] at h
        subst h
        have hbk : (dictKeys (CodexAdapter.bundle_shared_modules root)).Nodup :=
          bundle_keys_nodup (fun c => c) root
        have hms := @merge_step src.scripts
          (CodexAdapter.bundle_shared_modules root) hnodup hbk
        exact ⟨hms.1, fun _ => hms.2⟩
      · rw [if_neg hn] at h
        subst h
        exact ⟨hnodup, fun hn2 => absurd hn2 hn⟩
  · intro h
    simp only [GeminiAdapter.transform_skill, base_transform_skill] at h
    cases hm : src.manifest with
    | none =>
      rw [hm] at h
      simp at h
    | some md =>
      rw [hm] at h
      simp only [Option.some.injEq] at h
      by_cases hn : GeminiAdapter.needs_shared_modules src.scripts = true
      · rw [if_pos hn] at h
        subst h
        have hbk : (dictKeys (GeminiAdapter.bundle_shared_modules root)).Nodup :=
          bundle_keys_nodup (fun c => c) root
        have hms := @merge_step src.scripts
          (GeminiAdapter.bundle_shared_modules root) hnodup hbk
        exact ⟨hms.1, fun _ => hms.2⟩
      · rw [if_neg hn] at h
        subst h
        exact ⟨hnodup, fun hn2 => absurd hn2 hn⟩

/-- Witness for C7: the source already stages a script at
`shared/lsp-engine/a.py`; bundling overwrites it with the shared-module
content and the final mapping holds the bundled value at that key. -/
theorem c7_bundled_write_wins_witness :
    dictLookup
      [(("shared/lsp-engine/a.py").data, FileContent.str (("import os").data)),
       (("b.py").data, FileContent.str patFromShared)]
      (sharedSlash ++ ("lsp-engine/a.py").data) =
      some (FileContent.str (("import os").data)) :=
  ((c7_bundled_write_wins (("demo").data)
      { manifest := some [],
        scripts := [(("shared/lsp-engine/a.py").data, FileContent.str (("old").data)),
                    (("b.py").data, FileContent.str patFromShared)] }
      { lsp_engine := some [(("lsp-engine/a.py").data, ("import os").data)],
        code_analyzer := none }
      { skill_md := OpenCodeAdapter.opencode_section (("demo").data),
        scripts := [(("shared/lsp-engine/a.py").data, FileContent.str (("import os").data)),
                    (("b.py").data, FileContent.str patFromShared)] }
      (by decide)).1 (by decide)).2 (by decide)
    (("lsp-engine/a.py").data) (("import os").data) (by decide)

/-! ## Claim C2 -/

/-- C2 (amended): in every adapter's `transform_skill`, when some
`str`-valued source script contains one of the four marker substrings and
the shared root yields a non-empty bundle, the output scripts mapping
contains a `shared/`-prefixed key. (As stated the claim fails when both
shared subtrees are absent: bundling is triggered but stages nothing.) -/
theorem c2_amended_bundling_completeness (skill_name : List Char) (src : SkillSource)
    (root : SharedRoot) (out : SkillOutput)
    (htrig : ∃ p s, (p, FileContent.str s) ∈ src.scripts ∧
      (containsSub patFromShared s = true ∨ containsSub patImportShared s = true ∨
       containsSub patLspClient s = true ∨ containsSub patCodeAnalyzer s = true)) :
    (OpenCodeAdapter.transform_skill skill_name src root = some out →
      OpenCodeAdapter.bundle_shared_modules root ≠ [] →
      ∃ k, k ∈ dictKeys out.scripts ∧ pfx sharedSlash k = true) ∧
    (CodexAdapter.transform_skill skill_name src root = some out →
      CodexAdapter.bundle_shared_modules root ≠ [] →
      ∃ k, k ∈ dictKeys out.scripts ∧ pfx sharedSlash k = true) ∧
    (GeminiAdapter.transform_skill skill_name src root = some out →
      GeminiAdapter.bundle_shared_modules root ≠ [] →
      ∃ k, k ∈ dictKeys out.scripts ∧ pfx sharedSlash k = true) := by
  have hn : needsSharedScan src.scripts = true := (needsSharedScan_iff src.scripts).2 htrig
  refine ⟨?_, ?_, ?_⟩
  · intro h hne
    simp only [OpenCodeAdapter.transform_skill, base_transform_skill] at h
    cases hm : src.manifest with
    | none =>
      rw [hm] at h
      simp at h
    | some md =>
      rw [hm] at h
      simp only [Option.some.injEq] at h
      have hn' : OpenCodeAdapter.needs_shared_modules src.scripts = true := hn
      rw [if_pos hn'] at h
      subst h
      obtain ⟨kv, hkv⟩ := List.exists_mem_of_ne_nil _ hne
      refine ⟨sharedSlash ++ kv.1, ?_, pfx_self_append _ _⟩
      exact entry_mem_dictKeys_foldUpdate _ _
        (List.mem_map.2 ⟨kv, hkv, rfl⟩)
  · intro h hne
    simp only [CodexAdapter.transform_skill, base_transform_skill] at h
    cases hm : src.manifest with
    | none =>
      rw [hm] at h
      simp at h
    | some md =>
      rw [hm] at h
      simp only [Option.some.injEq] at h
      have hn' : CodexAdapter.needs_shared_modules src.scripts = true := hn
      rw [if_pos hn'] at h
      subst h
      obtain ⟨kv, hkv⟩ := List.exists_mem_of_ne_nil _ hne
      refine ⟨sharedSlash ++ kv.1, ?_, pfx_self_append _ _⟩
      exact entry_mem_dictKeys_foldUpdate _ _
        (List.mem_map.2 ⟨kv, hkv, rfl⟩)
  · intro h hne
    simp only [GeminiAdapter.transform_skill, base_transform_skill] at h
    cases hm : src.manifest with
    | none =>
      rw [hm] at h
      simp at h
    | some md =>
      rw [hm] at h
      simp only [Option.some.injEq] at h
      have hn' : GeminiAdapter.needs_shared_modules src.scripts = true := hn
      rw [if_pos hn'] at h
      subst h
      obtain ⟨kv, hkv⟩ := List.exists_mem_of_ne_nil _ hne
      refine ⟨sharedSlash ++ kv.1, ?_, pfx_self_append _ _⟩
      exact entry_mem_dictKeys_foldUpdate _ _
        (List.mem_map.2 ⟨kv, hkv, rfl⟩)

/-- Witness for C2 (amended) at a shared root holding one `lsp-engine` file. -/
theorem c2_amended_bundling_completeness_witness :
    ∃ k, k ∈ dictKeys
      [(("a.py").data, FileContent.str patFromShared),
       (sharedSlash ++ ("lsp-engine/a.py").data, FileContent.str (("import os").data))]
      ∧ pfx sharedSlash k = true :=
  (c2_amended_bundling_completeness (("demo").data)
      { manifest := some [], scripts := [(("a.py").data, FileContent.str patFromShared)] }
      { lsp_engine := some [(("lsp-engine/a.py").data, ("import os").data)],
        code_analyzer := none }
      { skill_md := OpenCodeAdapter.opencode_section (("demo").data),
        scripts := [(("a.py").data, FileContent.str patFromShared),
                    (sharedSlash ++ ("lsp-engine/a.py").data,
                     FileContent.str (("import os").data))] }
      ⟨("a.py").data, patFromShared, by decide, Or.inl (containsSub_self _)⟩).1
    (by decide) (by decide)

/-- Counterexample to C2 as stated: with both shared subtrees absent, a
script containing `"from shared"` triggers bundling, but nothing is staged
and the output mapping has no `shared/`-prefixed key. -/
theorem c2_counterexample_empty_shared_root :
    OpenCodeAdapter.transform_skill (("demo").data)
      { manifest := some [], scripts := [(("a.py").data, FileContent.str patFromShared)] }
      { lsp_engine := none, code_analyzer := none } =
      some { skill_md := OpenCodeAdapter.opencode_section (("demo").data),
             scripts := [(("a.py").data, FileContent.str patFromShared)] } ∧
    containsSub patFromShared patFromShared = true ∧
    (dictKeys [(("a.py").data, FileContent.str patFromShared)]).all
      (fun k => !(pfx sharedSlash k)) = true := by
  refine ⟨by decide, by decide, by decide⟩

/-! ## Claim C8 -/

theorem containsSub_ne_nil {t s : List Char} (ht : t ≠ []) (h : containsSub t s = true) :
    s ≠ [] := by
  rcases (containsSub_iff _ _).1 h with ⟨a, b, rfl⟩
  intro hnil
  have := congrArg List.length hnil
  simp only [List.length_append, List.length_nil] at this
  exact ht (List.length_eq_zero.1 (by omega))

/-- C8: every adapter's `transform_skill_md` returns text containing that
adapter's CLI usage heading (either it was already present, or the usage
section - whose first piece contains the heading - is appended); in
particular the result is never empty, even for empty input. -/
theorem c8_transform_skill_md_contains_heading (content skill_name : List Char) :
    (containsSub ocHeading (OpenCodeAdapter.transform_skill_md content skill_name) = true ∧
      OpenCodeAdapter.transform_skill_md content skill_name ≠ []) ∧
    (containsSub cxHeading (CodexAdapter.transform_skill_md content skill_name) = true ∧
      CodexAdapter.transform_skill_md content skill_name ≠ []) ∧
    (containsSub gmHeading (GeminiAdapter.transform_skill_md content skill_name) = true ∧
      GeminiAdapter.transform_skill_md content skill_name ≠ []) := by
  refine ⟨?_, ?_, ?_⟩
  · simp only [OpenCodeAdapter.transform_skill_md]
    by_cases hc : containsSub ocHeading (common_skill_md_transforms content) = true
    · rw [if_pos hc]
      exact ⟨hc, containsSub_ne_nil (by decide) hc⟩
    · rw [if_neg hc]
      have h1 : containsSub ocHeading (OpenCodeAdapter.opencode_section skill_name) = true := by
        simp only [OpenCodeAdapter.opencode_section]
        exact containsSub_append_left _ (containsSub_append_left _
          (containsSub_append_left _ (containsSub_append_left _ (by decide))))
      have h2 := containsSub_append_right (common_skill_md_transforms content) h1
      exact ⟨h2, containsSub_ne_nil (by decide) h2⟩
  · simp only [CodexAdapter.transform_skill_md]
    by_cases hc : containsSub cxHeading
        (CodexAdapter.directory_renames (common_skill_md_transforms content)) = true
    · rw [if_pos hc]
      exact ⟨hc, containsSub_ne_nil (by decide) hc⟩
    · rw [if_neg hc]
      have h1 : containsSub cxHeading (CodexAdapter.codex_section skill_name) = true := by
        simp only [CodexAdapter.codex_section]
        exact containsSub_append_left _ (containsSub_append_left _
          (containsSub_append_left _ (containsSub_append_left _ (by decide))))
      have h2 := containsSub_append_right
        (CodexAdapter.directory_renames (common_skill_md_transforms content)) h1
      exact ⟨h2, containsSub_ne_nil (by decide) h2⟩
  · simp only [GeminiAdapter.transform_skill_md]
    by_cases hc : containsSub gmHeading (common_skill_md_transforms content) = true
    · rw [if_pos hc]
      exact ⟨hc, containsSub_ne_nil (by decide) hc⟩
    · rw [if_neg hc]
      have h1 : containsSub gmHeading (GeminiAdapter.gemini_section skill_name) = true := by
        simp only [GeminiAdapter.gemini_section]
        exact containsSub_append_left _ (containsSub_append_left _
          (containsSub_append_left _ (containsSub_append_left _
          (containsSub_append_left _ (containsSub_append_left _
          (containsSub_append_left _ (containsSub_append_left _ (by decide))))))))
      have h2 := containsSub_append_right (common_skill_md_transforms content) h1
      exact ⟨h2, containsSub_ne_nil (by decide) h2⟩

/-! ## Lemmas about the regex scanners (claim C1) -/

theorem splitWords_append (l : List Char) : (splitWords l).1 ++ (splitWords l).2 = l := by
  induction l with
  | nil => rfl
  | cons c rest ih =>
    simp only [splitWords]
    by_cases h : isWordChar c = true
    · simp only [h, if_true, List.cons_append, ih]
    · simp [h]

theorem splitWords_fst_word (l : List Char) :
    ∀ c ∈ (splitWords l).1, isWordChar c = true := by
  induction l with
  | nil => simp [splitWords]
  | cons c rest ih =>
    simp only [splitWords]
    by_cases h : isWordChar c = true
    · simp only [h, if_true]
      intro x hx
      rcases List.mem_cons.1 hx with h1 | h1
      · exact h1 ▸ h
      · exact ih x h1
    · simp [h]

theorem splitWords_snd_head (l : List Char) {c : Char} {rest : List Char}
    (h : (splitWords l).2 = c :: rest) : isWordChar c = false := by
  induction l with
  | nil => simp [splitWords] at h
  | cons x xs ih =>
    simp only [splitWords] at h
    by_cases hx : isWordChar x = true
    · simp only [hx, if_true] at h
      exact ih h
    · simp only [hx, Bool.false_eq_true, if_false, List.cons.injEq] at h
      rw [← h.1]
      simpa using hx

theorem splitWords_word_head {c : Char} (l : List Char) (h : isWordChar c = true) :
    (splitWords (c :: l)).1.isEmpty = false := by
  simp [splitWords, h]

theorem pfx_head_eq {a b : Char} {as bs : List Char} (h : pfx (a :: as) (b :: bs) = true) :
    a = b := by
  simp only [pfx, Bool.and_eq_true, beq_iff_eq] at h
  exact h.1

theorem pfx_false_of_head_ne {a b : Char} (as bs : List Char) (h : ¬a = b) :
    pfx (a :: as) (b :: bs) = false := by
  simp [pfx, h]

theorem pfx_nil_right {t : List Char} (h : pfx t [] = true) : t = [] := by
  cases t with
  | nil => rfl
  | cons c cs => simp [pfx] at h

theorem drop_cons_getD (a : List Char) (q : Nat) (h : q < a.length) :
    a.drop q = a.getD q ' ' :: a.drop (q + 1) := by
  induction a generalizing q with
  | nil => simp at h
  | cons c a' ih =>
    cases q with
    | zero => simp [List.getD]
    | succ q =>
      simp only [List.drop_succ_cons, List.getD_cons_succ]
      exact ih q (by simpa using h)

/-- If no match of `pat` starts in the first `k` positions, the scanner
copies those characters verbatim. -/
theorem subScan_copy (pat rep : List Char) :
    ∀ k (s : List Char), (∀ q, q < k → pfx pat (s.drop q) = false) →
      subScan pat rep s = s.take k ++ subScan pat rep (s.drop k) := by
  intro k
  induction k with
  | zero => intro s _; simp
  | succ k ih =>
    intro s hq
    cases s with
    | nil => simp
    | cons c s' =>
      have h0 : pfx pat (c :: s') = false := by simpa using hq 0 (Nat.succ_pos k)
      rw [subScan_cons, if_neg (by simp [h0])]
      simp only [List.take_succ_cons, List.drop_succ_cons, List.cons_append,
        List.cons.injEq, true_and]
      exact ih s' fun q hq2 => by simpa using hq (q + 1) (Nat.succ_lt_succ hq2)

/-- The scanner fires on any input containing the literal pattern followed by
a word character, so the replacement text occurs in the output. -/
theorem subScan_contains_rep (pat rep : List Char) (hpat : pat ≠ []) :
    ∀ (a : List Char) (f : Char) (rest : List Char), isWordChar f = true →
      containsSub rep (subScan pat rep (a ++ (pat ++ f :: rest))) = true := by
  intro a
  induction a with
  | nil =>
    intro f rest hf
    cases pat with
    | nil => exact absurd rfl hpat
    | cons p0 pat' =>
      simp only [List.nil_append, List.cons_append]
      rw [subScan_cons]
      have hp : pfx (p0 :: pat') (p0 :: (pat' ++ f :: rest)) = true := by
        have := pfx_self_append (p0 :: pat') (f :: rest)
        simpa using this
      rw [if_pos hp]
      have hdrop : List.drop ((p0 :: pat').length - 1) (pat' ++ f :: rest) = f :: rest := by
        simp only [List.length_cons, Nat.add_sub_cancel]
        rw [show pat'.length = pat'.length + 0 from rfl]
        rw [List.drop_append_eq_append_drop]
        simp
      rw [hdrop]
      have hne : (splitWords (f :: rest)).1.isEmpty = false := splitWords_word_head rest hf
      simp only [splitWords, hf, if_true]
      simp only [List.isEmpty_cons, Bool.false_eq_true, if_false]
      exact containsSub_append_left _ (containsSub_append_left _ (containsSub_self rep))
  | cons c a' ih =>
    intro f rest hf
    simp only [List.cons_append]
    rw [subScan_cons]
    by_cases hp : pfx pat (c :: (a' ++ (pat ++ f :: rest))) = true
    · rw [if_pos hp]
      by_cases he : (splitWords (List.drop (pat.length - 1)
          (a' ++ (pat ++ f :: rest)))).1.isEmpty = true
      · simp only [he, if_true]
        exact containsSub_cons c (ih f rest hf)
      · simp only [he, Bool.false_eq_true, if_false]
        exact containsSub_append_left _ (containsSub_append_left _ (containsSub_self rep))
    · rw [if_neg hp]
      exact containsSub_cons c (ih f rest hf)

theorem getD_mem_take {l : List Char} {i k : Nat} (hik : i < k) (hil : i < l.length) :
    l.getD i ' ' ∈ l.take k := by
  have h1 : i < (l.take k).length := by
    simp only [List.length_take]
    omega
  have h2 : (l.take k).getD i ' ' = l.getD i ' ' := by
    rw [List.getD_eq_getElem _ _ h1, List.getD_eq_getElem _ _ hil]
    exact List.getElem_take _
  rw [← h2, List.getD_eq_getElem _ _ h1]
  exact List.getElem_mem h1

theorem sfxB_head_mem {c : Char} {q s : List Char} (h : sfxB (c :: q) s = true) :
    c ∈ s := by
  rcases (sfxB_iff _ _).1 h with ⟨a, rfl⟩
  simp

theorem getD_middle (α t β : List Char) (i : Nat) (d : Char) (h : i < t.length) :
    (α ++ (t ++ β)).getD (α.length + i) d = t.getD i d := by
  rw [List.getD_append_right _ _ _ _ (Nat.le_add_right _ _), Nat.add_sub_cancel_left,
    List.getD_append _ _ _ _ h]

/-- The `import shared.` rewrite never destroys an occurrence of the
`from .shared.` text produced by the first rewrite: its pattern starts with
`'i'`, a character the text does not contain, and its greedy word capture
cannot swallow the space or dots of the text. -/
theorem subScanImport_preserves_aux :
    ∀ n (s : List Char), s.length ≤ n → containsSub replFromSharedDot s = true →
      containsSub replFromSharedDot (subScanImport s) = true := by
  intro n
  induction n using Nat.strong_induction_on with
  | _ n ih =>
    intro s hs hcon
    by_cases hts : pfx replFromSharedDot s = true
    · -- the occurrence starts at position 0: the first 13 characters contain
      -- no 'i', so the scanner copies them verbatim
      rcases (pfx_iff _ _).1 hts with ⟨rem, rfl⟩
      have hnom : ∀ q, q < 13 →
          pfx patImportSharedDot ((replFromSharedDot ++ rem).drop q) = false := by
        intro q hq
        rw [List.drop_append_eq_append_drop]
        have hlen : q < replFromSharedDot.length := hq
        rw [drop_cons_getD _ q hlen]
        have hz : q - replFromSharedDot.length = 0 := by
          have h13 : replFromSharedDot.length = 13 := rfl
          omega
        rw [hz, List.drop_zero, List.cons_append]
        have hni : ¬('i' = replFromSharedDot.getD q ' ') := by
          have hd : ∀ m, m < 13 → ¬('i' = replFromSharedDot.getD m ' ') := by decide
          exact hd q hq
        exact pfx_false_of_head_ne _ _ hni
      have hcopy := subScan_copy patImportSharedDot replImportSharedDot 13 _ hnom
      have ht13 : (replFromSharedDot ++ rem).take 13 = replFromSharedDot :=
        List.take_left' rfl
      have hd13 : (replFromSharedDot ++ rem).drop 13 = rem := List.drop_left' rfl
      rw [show subScanImport (replFromSharedDot ++ rem) =
          subScan patImportSharedDot replImportSharedDot (replFromSharedDot ++ rem) from rfl,
        hcopy, ht13, hd13]
      exact containsSub_append_left _ (containsSub_self _)
    · cases s with
      | nil =>
        simp only [containsSub, List.isEmpty_iff] at hcon
        exact absurd hcon (by decide)
      | cons c s' =>
        have hcon' : containsSub replFromSharedDot s' = true := by
          simp only [containsSub, Bool.or_eq_true] at hcon
          rcases hcon with h | h
          · exact absurd h hts
          · exact h
        have hs' : s'.length < n := by
          simp only [List.length_cons] at hs
          omega
        rw [show subScanImport (c :: s') =
          subScan patImportSharedDot replImportSharedDot (c :: s') from rfl, subScan_cons]
        by_cases hp : pfx patImportSharedDot (c :: s') = true
        · rw [if_pos hp]
          by_cases he : (splitWords (List.drop (patImportSharedDot.length - 1) s')).1.isEmpty
              = true
          · simp only [he, if_true]
            exact containsSub_cons c (ih s'.length hs' s' le_rfl hcon')
          · simp only [he, Bool.false_eq_true, if_false]
            -- the scanner fires: s = P ++ w ++ rest with w a non-empty word run
            rcases (pfx_iff _ _).1 hp with ⟨tail0, heq⟩
            have hdrop : List.drop (patImportSharedDot.length - 1) s' = tail0 := by
              have : s' = List.drop 1 (c :: s') := rfl
              rw [this, heq, List.drop_drop]
              exact List.drop_left' rfl
            rw [hdrop] at he ⊢
            set w := (splitWords tail0).1 with hw
            set rest := (splitWords tail0).2 with hrest
            have hsplit : w ++ rest = tail0 := splitWords_append tail0
            have hcon2 : containsSub replFromSharedDot
                ((patImportSharedDot ++ w) ++ rest) = true := by
              rw [List.append_assoc, hsplit, ← heq]
              exact hcon
            have hreslen : rest.length < n := by
              have h1 : rest.length ≤ tail0.length := by
                rw [← hsplit]
                simp
              have h2 : tail0.length ≤ s'.length := by
                rw [← hdrop]
                simp only [List.length_drop]
                omega
              omega
            rcases containsSub_split hcon2 with hin | hin | ⟨k, hk0, hk13, hsfx, hpfx⟩
            · -- an occurrence inside `P ++ w` is impossible
              exfalso
              rcases (containsSub_iff _ _).1 hin with ⟨α, β, hαβ⟩
              rw [List.append_assoc] at hαβ
              have hlen : patImportSharedDot.length + w.length =
                  α.length + (replFromSharedDot.length + β.length) := by
                have := congrArg List.length hαβ
                simpa [List.length_append] using this
              have h4 : (patImportSharedDot ++ w).getD (α.length + 4) 'x' =
                  replFromSharedDot.getD 4 'x' := by
                rw [hαβ, getD_middle _ _ _ _ _ (by decide)]
              have hsp : replFromSharedDot.getD 4 'x' = ' ' := by decide
              by_cases hm : α.length + 4 < 14
              · have hP : (patImportSharedDot ++ w).getD (α.length + 4) 'x' =
                    patImportSharedDot.getD (α.length + 4) 'x' :=
                  List.getD_append _ _ _ _ hm
                have h6 : α.length + 4 = 6 := by
                  have hd : ∀ m, m < 14 →
                      (patImportSharedDot.getD m 'x' = ' ' → m = 6) := by decide
                  exact hd _ hm (by rw [← hP, h4, hsp])
                have hα2 : α.length = 2 := by omega
                have h5 : (patImportSharedDot ++ w).getD (α.length + 5) 'x' =
                    replFromSharedDot.getD 5 'x' := by
                  rw [hαβ, getD_middle _ _ _ _ _ (by decide)]
                have h7 : (patImportSharedDot ++ w).getD (α.length + 5) 'x' =
                    patImportSharedDot.getD (α.length + 5) 'x' :=
                  List.getD_append _ _ _ _
                    (by have hP14 : patImportSharedDot.length = 14 := rfl; omega)
                rw [h7, hα2] at h5
                have : patImportSharedDot.getD 7 'x' = replFromSharedDot.getD 5 'x' := h5
                exact absurd this (by decide)
              · have hwi : α.length + 4 - 14 < w.length := by
                  have hP13 : patImportSharedDot.length = 14 := rfl
                  have ht13 : replFromSharedDot.length = 13 := rfl
                  omega
                have hP : (patImportSharedDot ++ w).getD (α.length + 4) 'x' =
                    w.getD (α.length + 4 - 14) 'x' :=
                  List.getD_append_right _ _ _ _
                    (by have hP14 : patImportSharedDot.length = 14 := rfl; omega)
                have hmem : w.getD (α.length + 4 - 14) 'x' ∈ w := by
                  rw [List.getD_eq_getElem _ _ hwi]
                  exact List.getElem_mem hwi
                have hword := splitWords_fst_word tail0 _ hmem
                rw [hP] at h4
                rw [h4, hsp] at hword
                exact absurd hword (by decide)
            · -- an occurrence inside `rest` survives by induction
              have := ih rest.length hreslen rest le_rfl hin
              exact containsSub_append_right _ this
            · -- an occurrence spanning the boundary: only the `k = 4` split
              -- (word run ending in "from", rest starting " .shared.") is
              -- possible, and it survives the copy of `rest`'s head
              have hsw : sfxB (replFromSharedDot.take k) w = true := by
                rcases sfxB_append_cases hsfx with h | ⟨q, hqk, hqP⟩
                · exact h
                · cases q with
                  | nil => exact hqk ▸ sfxB_refl w
                  | cons q0 q' =>
                    exfalso
                    have hf : q0 = 'f' := by
                      have h1 : replFromSharedDot.take k =
                          'f' :: (replFromSharedDot.drop 1).take (k - 1) := by
                        have hk1 : k = (k - 1) + 1 := by omega
                        rw [hk1]
                        rfl
                      rw [h1] at hqk
                      simpa using congrArg (fun l => l.headI) hqk.symm
                    have := sfxB_head_mem hqP
                    rw [hf] at this
                    exact absurd this (by decide)
              have hk4 : k ≤ 4 := by
                by_contra hk5
                have hmem : replFromSharedDot.getD 4 ' ' ∈ replFromSharedDot.take k :=
                  getD_mem_take (by omega) (by decide)
                rcases (sfxB_iff _ _).1 hsw with ⟨pre, hpre⟩
                have hmemw : replFromSharedDot.getD 4 ' ' ∈ w := by
                  rw [hpre]
                  exact List.mem_append_right _ hmem
                have hword := splitWords_fst_word tail0 _ hmemw
                have : replFromSharedDot.getD 4 ' ' = ' ' := by decide
                rw [this] at hword
                exact absurd hword (by decide)
              have hkword : k = 4 ∨ isWordChar (replFromSharedDot.getD k ' ') = true := by
                interval_cases k
                · exact Or.inr (by decide)
                · exact Or.inr (by decide)
                · exact Or.inr (by decide)
                · exact Or.inl rfl
              rcases hkword with hk | hkw
              · -- k = 4
                subst hk
                rcases (sfxB_iff _ _).1 hsw with ⟨w0, hw0⟩
                rcases (pfx_iff _ _).1 hpfx with ⟨rest2, hrest2⟩
                have hnom9 : ∀ q, q < 9 →
                    pfx patImportSharedDot (rest.drop q) = false := by
                  intro q hq
                  rw [hrest2, List.drop_append_eq_append_drop]
                  have hql : q < (replFromSharedDot.drop 4).length := by
                    have ht13 : replFromSharedDot.length = 13 := rfl
                    simp only [List.length_drop]
                    omega
                  rw [drop_cons_getD _ q hql]
                  have hz : q - (replFromSharedDot.drop 4).length = 0 := by
                    have ht13 : replFromSharedDot.length = 13 := rfl
                    simp only [List.length_drop]
                    omega
                  rw [hz, List.drop_zero, List.cons_append]
                  have hni : ¬('i' = (replFromSharedDot.drop 4).getD q ' ') := by
                    have hd : ∀ m, m < 9 →
                        ¬('i' = (replFromSharedDot.drop 4).getD m ' ') := by decide
                    exact hd q hq
                  exact pfx_false_of_head_ne _ _ hni
                have hcopy := subScan_copy patImportSharedDot replImportSharedDot 9 _ hnom9
                have htk : rest.take 9 = replFromSharedDot.drop 4 := by
                  rw [hrest2]
                  exact List.take_left' rfl
                rw [hcopy, htk]
                refine (containsSub_iff _ _).2
                  ⟨replImportSharedDot ++ w0,
                   subScan patImportSharedDot replImportSharedDot (rest.drop 9), ?_⟩
                rw [hw0]
                rw [show (replImportSharedDot ++ (w0 ++ List.take 4 replFromSharedDot)) ++
                      (List.drop 4 replFromSharedDot ++
                        subScan patImportSharedDot replImportSharedDot (rest.drop 9)) =
                    (replImportSharedDot ++ w0) ++
                      ((List.take 4 replFromSharedDot ++ List.drop 4 replFromSharedDot) ++
                        subScan patImportSharedDot replImportSharedDot (rest.drop 9))
                  from by simp only [List.append_assoc]]
                rw [List.take_append_drop]
                simp only [List.append_assoc]
              · -- k ∈ {1, 2, 3}: `rest` would have to start with a word
                -- character, contradicting the greediness of the capture
                exfalso
                cases hrr : rest with
                | nil =>
                  rw [hrr] at hpfx
                  have := pfx_nil_right hpfx
                  have hlen := congrArg List.length this
                  simp only [List.length_drop, List.length_nil] at hlen
                  have h13 : replFromSharedDot.length = 13 := rfl
                  omega
                | cons r0 rest' =>
                  have hnw : isWordChar r0 = false := splitWords_snd_head tail0 hrr
                  have hdk : replFromSharedDot.drop k =
                      replFromSharedDot.getD k ' ' :: replFromSharedDot.drop (k + 1) :=
                    drop_cons_getD _ k (by have : replFromSharedDot.length = 13 := rfl; omega)
                  rw [hrr, hdk] at hpfx
                  have := pfx_head_eq hpfx
                  rw [← this] at hnw
                  rw [hkw] at hnw
                  exact absurd hnw (by decide)
        · rw [if_neg hp]
          exact containsSub_cons c (ih s'.length hs' s' le_rfl hcon')

theorem subScanImport_preserves {s : List Char}
    (h : containsSub replFromSharedDot s = true) :
    containsSub replFromSharedDot (subScanImport s) = true :=
  subScanImport_preserves_aux s.length s le_rfl h

/-! ## Claim C1 -/

/-- C1 (amended): only the OpenCode adapter rewrites shared imports. Every
`.py` file of an existing shared subtree is staged by OpenCode's bundling
with content `_rewrite_shared_imports(source)`, and whenever a source text
contains `from shared.foo` (for a word-character submodule name `foo`) the
rewritten text contains the local-relative form `from .shared.`. (Codex and
Gemini stage sources unchanged, and even OpenCode can leave a literal
`from shared.foo` behind when occurrences overlap a preceding match; see the
counterexample.) -/
theorem c1_amended_shared_import_rewrite :
    (∀ (root : SharedRoot) (fs : List (List Char × List Char)) (p c : List Char),
        root.lsp_engine = some fs → (p, c) ∈ fs → sfxB pySuffix p = true →
        (p, OpenCodeAdapter.rewrite_shared_imports c) ∈
          bundleRawWith OpenCodeAdapter.rewrite_shared_imports root) ∧
    (∀ (root : SharedRoot) (fs : List (List Char × List Char)) (p c : List Char),
        root.code_analyzer = some fs → (p, c) ∈ fs → sfxB pySuffix p = true →
        (p, OpenCodeAdapter.rewrite_shared_imports c) ∈
          bundleRawWith OpenCodeAdapter.rewrite_shared_imports root) ∧
    (∀ (a foo b : List Char) (f : Char), isWordChar f = true →
        (∀ ch ∈ foo, isWordChar ch = true) →
        containsSub replFromSharedDot
          (OpenCodeAdapter.rewrite_shared_imports
            (a ++ patFromSharedDot ++ (f :: foo) ++ b)) = true) := by
  refine ⟨?_, ?_, ?_⟩
  · intro root fs p c hl hm hpy
    simp only [bundleRawWith, hl]
    refine List.mem_append_left _ ?_
    exact List.mem_map.2 ⟨(p, c), List.mem_filter.2 ⟨hm, hpy⟩, rfl⟩
  · intro root fs p c hl hm hpy
    simp only [bundleRawWith, hl]
    refine List.mem_append_right _ ?_
    refine List.mem_append_left _ ?_
    refine List.mem_append_left _ ?_
    exact List.mem_map.2 ⟨(p, c), List.mem_filter.2 ⟨hm, hpy⟩, rfl⟩
  · intro a foo b f hf _
    have h1 := subScan_contains_rep patFromSharedDot replFromSharedDot (by decide) a f
      (foo ++ b) hf
    have heq : a ++ patFromSharedDot ++ (f :: foo) ++ b =
        a ++ (patFromSharedDot ++ f :: (foo ++ b)) := by
      simp [List.append_assoc]
    rw [show OpenCodeAdapter.rewrite_shared_imports (a ++ patFromSharedDot ++ (f :: foo) ++ b)
        = subScanImport (subScanFrom (a ++ patFromSharedDot ++ (f :: foo) ++ b)) from rfl,
      heq]
    exact subScanImport_preserves h1

/-- Witness for C1 (amended) at `from shared.lsp_client import X`. -/
theorem c1_amended_shared_import_rewrite_witness :
    containsSub replFromSharedDot
      (OpenCodeAdapter.rewrite_shared_imports
        (([] : List Char) ++ patFromSharedDot ++ ('l' :: ("sp_client").data) ++
          (" import X").data)) = true :=
  c1_amended_shared_import_rewrite.2.2 [] (("sp_client").data) ((" import X").data) 'l'
    (by decide) (by decide)

/-- Counterexample to C1 as stated: Codex and Gemini stage a `.py` shared
file whose content contains `from shared.x` byte-for-byte unchanged, so the
original pattern survives and no rewritten form appears; and even OpenCode's
rewriter leaves a literal `from shared.x` in
`from shared.from shared.x` because the two occurrences overlap. -/
theorem c1_counterexample_unrewritten_codex_gemini :
    dictLookup
      (CodexAdapter.bundle_shared_modules
        { lsp_engine := some [(("lsp-engine/a.py").data, ("from shared.x import y").data)],
          code_analyzer := none })
      (("lsp-engine/a.py").data) = some (("from shared.x import y").data) ∧
    dictLookup
      (GeminiAdapter.bundle_shared_modules
        { lsp_engine := some [(("lsp-engine/a.py").data, ("from shared.x import y").data)],
          code_analyzer := none })
      (("lsp-engine/a.py").data) = some (("from shared.x import y").data) ∧
    containsSub (("from shared.x").data) (("from shared.x import y").data) = true ∧
    containsSub replFromSharedDot (("from shared.x import y").data) = false ∧
    containsSub (("from shared.x").data)
      (OpenCodeAdapter.rewrite_shared_imports
        (("from shared.from shared.x").data)) = true :=
  ⟨by decide, by decide, by decide, by decide, by decide⟩

/-! ## Elimination and preservation lemmas for `replaceAll` (claims C3, C4) -/

theorem containsSub_cons_eq (t : List Char) (c : Char) (s : List Char) :
    containsSub t (c :: s) = (pfx t (c :: s) || containsSub t s) := rfl

theorem containsTwoSub_cons_eq (t : List Char) (c : Char) (s : List Char) :
    containsTwoSub t (c :: s) =
      (if pfx t (c :: s) then containsSub t s else containsTwoSub t s) := rfl

theorem containsSub_of_sfx_pfx {t a₀ a : List Char} (hs : sfxB a₀ a = true)
    (hp : pfx t a₀ = true) : containsSub t a = true := by
  rcases (sfxB_iff _ _).1 hs with ⟨pre, rfl⟩
  rcases (pfx_iff _ _).1 hp with ⟨q, rfl⟩
  exact (containsSub_iff _ _).2 ⟨pre, q, by simp⟩

theorem pfx_cons_iff {x y : Char} {xs ys : List Char} :
    pfx (x :: xs) (y :: ys) = true ↔ x = y ∧ pfx xs ys = true := by
  simp [pfx]

/-- If no match of `u` starts in the first `k` positions, `replaceAll` copies
those characters verbatim. -/
theorem replaceAll_copy (u r : List Char) :
    ∀ k (s : List Char), (∀ q, q < k → pfx u (s.drop q) = false) →
      replaceAll u r s = s.take k ++ replaceAll u r (s.drop k) := by
  intro k
  induction k with
  | zero => intro s _; simp
  | succ k ih =>
    intro s hq
    cases s with
    | nil => simp
    | cons c s' =>
      have h0 : pfx u (c :: s') = false := by simpa using hq 0 (Nat.succ_pos k)
      rw [replaceAll_cons_neg r c s' h0]
      simp only [List.take_succ_cons, List.drop_succ_cons, List.cons_append,
        List.cons.injEq, true_and]
      exact ih s' fun q hq2 => by simpa using hq (q + 1) (Nat.succ_lt_succ hq2)

/-- No occurrence of `t` can start inside a block `a` that neither contains
`t` nor ends with a proper non-empty `t`-prefix, so such a block can be
stripped from the front when counting occurrences. -/
theorem containsSub_strip_left {t : List Char} (ht : t ≠ []) :
    ∀ {a : List Char} (Z : List Char), containsSub t a = false →
      (∀ k, k < t.length → 0 < k → sfxB (t.take k) a = false) →
      containsSub t (a ++ Z) = containsSub t Z ∧
      containsTwoSub t (a ++ Z) = containsTwoSub t Z := by
  intro a
  induction a with
  | nil => intro Z _ _; simp
  | cons c a' ih =>
    intro Z hA hB
    have hnp : pfx t ((c :: a') ++ Z) = false := by
      by_contra hcon
      simp only [Bool.not_eq_false] at hcon
      rcases pfx_append_cases hcon with h1 | ⟨q, hq, h2⟩
      · have : containsSub t (c :: a') = true := containsSub_of_sfx_pfx (sfxB_refl _) h1
        rw [hA] at this
        cases this
      · cases q with
        | nil =>
          rw [List.append_nil] at hq
          have : containsSub t (c :: a') = true :=
            hq ▸ containsSub_self _
          rw [hA] at this
          cases this
        | cons q0 q' =>
          have hkt : (c :: a').length < t.length := by
            have := congrArg List.length hq
            simp only [List.length_append, List.length_cons] at this ⊢
            omega
          have htake : t.take (c :: a').length = c :: a' := by
            rw [hq]
            exact List.take_left _ _
          have := hB (c :: a').length hkt (by simp)
          rw [htake] at this
          rw [sfxB_refl] at this
          cases this
    have hA' : containsSub t a' = false := by
      have := containsSub_cons_eq t c a'
      rw [hA] at this
      have h2 := this.symm
      simp only [Bool.or_eq_false_iff] at h2
      exact h2.2
    have hB' : ∀ k, k < t.length → 0 < k → sfxB (t.take k) a' = false := by
      intro k hk hk0
      by_contra hcon
      simp only [Bool.not_eq_false] at hcon
      have := sfxB_cons c hcon
      rw [hB k hk hk0] at this
      cases this
    constructor
    · rw [List.cons_append, containsSub_cons_eq,
        show pfx t (c :: (a' ++ Z)) = false from hnp]
      simp only [Bool.false_or]
      exact (ih Z hA' hB').1
    · rw [List.cons_append, containsTwoSub_cons_eq,
        show pfx t (c :: (a' ++ Z)) = false from hnp]
      simp only [Bool.false_eq_true, if_false]
      exact (ih Z hA' hB').2

theorem containsTwoSub_append_right {t : List Char} (ht : t ≠ []) (a : List Char)
    {b : List Char} (h : containsTwoSub t b = true) :
    containsTwoSub t (a ++ b) = true := by
  rcases (containsTwoSub_iff ht b).1 h with ⟨x, y, rfl, h2⟩
  refine (containsTwoSub_iff ht _).2 ⟨a ++ x, y, by simp, h2⟩

/-- `replaceAll t r` eliminates every occurrence of `t` when `r` does not
contain `t`, no proper non-empty prefix of `t` is a suffix of `r`, and no
proper non-empty tail of `t` overlaps `r` as a prefix in either direction.
The second conjunct traces proper `t`-tails at the head of the output back
to the input. -/
theorem replaceAll_self_elim (t r : List Char) (ht : t ≠ [])
    (hA : containsSub t r = false)
    (hB : ∀ k, k < t.length → 0 < k → sfxB (t.take k) r = false)
    (hC : ∀ k, k < t.length → 0 < k →
      pfx (t.drop k) r = false ∧ pfx r (t.drop k) = false) :
    ∀ n (s : List Char), s.length ≤ n →
      containsSub t (replaceAll t r s) = false ∧
      (∀ k, k < t.length → 0 < k → pfx (t.drop k) (replaceAll t r s) = true →
        pfx (t.drop k) s = true) := by
  intro n
  induction n using Nat.strong_induction_on with
  | _ n ih =>
    intro s hs
    cases s with
    | nil =>
      constructor
      · rw [replaceAll_nil, show containsSub t [] = t.isEmpty from rfl]
        simpa [List.isEmpty_iff] using ht
      · intro k _ _ hpf
        rw [replaceAll_nil] at hpf
        exact hpf
    | cons c s' =>
      have ht1 : 1 ≤ t.length := by
        cases t with
        | nil => exact absurd rfl ht
        | cons _ _ => simp
      by_cases hp : pfx t (c :: s') = true
      · rcases (pfx_iff _ _).1 hp with ⟨rest, heq⟩
        rw [replaceAll_cons_pos r ht c s' heq]
        have hrl : rest.length < n := by
          have := congrArg List.length heq
          simp only [List.length_cons, List.length_append] at this
          simp only [List.length_cons] at hs
          omega
        have ihr := ih rest.length hrl rest le_rfl
        constructor
        · by_contra hcon
          simp only [Bool.not_eq_false] at hcon
          rcases containsSub_split hcon with h1 | h1 | ⟨k, hk0, hkt, hsfx, hpfx2⟩
          · rw [hA] at h1
            cases h1
          · rw [ihr.1] at h1
            cases h1
          · rw [hB k hkt hk0] at hsfx
            cases hsfx
        · intro k hk hk0 hpf
          rcases pfx_append_cases hpf with h1 | ⟨q, hq, h2⟩
          · rw [(hC k hk hk0).1] at h1
            cases h1
          · exfalso
            have hrp : pfx r (t.drop k) = true := (pfx_iff _ _).2 ⟨q, hq⟩
            rw [(hC k hk hk0).2] at hrp
            cases hrp
      · have hpf : pfx t (c :: s') = false := by simpa using hp
        rw [replaceAll_cons_neg r c s' hpf]
        have hs'n : s'.length < n := by
          simp only [List.length_cons] at hs
          omega
        have ihs := ih s'.length hs'n s' le_rfl
        have comp2 : ∀ k, k < t.length → 0 < k →
            pfx (t.drop k) (c :: replaceAll t r s') = true →
            pfx (t.drop k) (c :: s') = true := by
          intro k hk hk0 hgoal
          have hdk : t.drop k = t.getD k ' ' :: t.drop (k + 1) := drop_cons_getD t k hk
          rw [hdk] at hgoal ⊢
          rcases pfx_cons_iff.1 hgoal with ⟨hc1, hc2⟩
          refine pfx_cons_iff.2 ⟨hc1, ?_⟩
          by_cases hk1 : k + 1 < t.length
          · exact ihs.2 (k + 1) hk1 (by omega) hc2
          · have hnil : t.drop (k + 1) = [] := List.drop_eq_nil_of_le (by omega)
            rw [hnil]
            rfl
        refine ⟨?_, comp2⟩
        rw [containsSub_cons_eq]
        have h1 : pfx t (c :: replaceAll t r s') = false := by
          by_contra hcon
          simp only [Bool.not_eq_false] at hcon
          cases t with
          | nil => exact absurd rfl ht
          | cons t0 t' =>
            obtain ⟨ht0, htp⟩ := pfx_cons_iff.1 hcon
            cases t' with
            | nil =>
              have : pfx (t0 :: []) (c :: s') = true := pfx_cons_iff.2 ⟨ht0, rfl⟩
              rw [hpf] at this
              cases this
            | cons t1 t'' =>
              have hk1 : 1 < (t0 :: t1 :: t'').length := by simp
              have hps' : pfx ((t0 :: t1 :: t'').drop 1) s' = true :=
                ihs.2 1 hk1 (by omega) htp
              have : pfx (t0 :: t1 :: t'') (c :: s') = true :=
                pfx_cons_iff.2 ⟨ht0, hps'⟩
              rw [hpf] at this
              cases this
        rw [h1, ihs.1]
        rfl

/-- `replaceAll u r` never creates occurrences of an unrelated text `t` (and
never duplicates them) when `r` does not contain `t`, no proper non-empty
prefix of `t` is a suffix of `r`, and no proper non-empty tail of `t`
overlaps `r` as a prefix in either direction. -/
theorem replaceAll_other_pres (t u r : List Char) (ht : t ≠ []) (hu : u ≠ [])
    (hA : containsSub t r = false)
    (hB : ∀ k, k < t.length → 0 < k → sfxB (t.take k) r = false)
    (hC : ∀ k, k < t.length → 0 < k →
      pfx (t.drop k) r = false ∧ pfx r (t.drop k) = false) :
    ∀ n (x : List Char), x.length ≤ n →
      (containsSub t (replaceAll u r x) = true → containsSub t x = true) ∧
      (∀ k, k < t.length → 0 < k → pfx (t.drop k) (replaceAll u r x) = true →
        pfx (t.drop k) x = true) ∧
      (containsTwoSub t (replaceAll u r x) = true → containsTwoSub t x = true) := by
  intro n
  induction n using Nat.strong_induction_on with
  | _ n ih =>
    intro x hx
    cases x with
    | nil =>
      refine ⟨?_, ?_, ?_⟩
      · intro h
        rw [replaceAll_nil] at h
        exact h
      · intro k _ _ h
        rw [replaceAll_nil] at h
        exact h
      · intro h
        rw [replaceAll_nil] at h
        exact h
    | cons c x' =>
      have hu1 : 1 ≤ u.length := by
        cases u with
        | nil => exact absurd rfl hu
        | cons _ _ => simp
      by_cases hp : pfx u (c :: x') = true
      · rcases (pfx_iff _ _).1 hp with ⟨rest, heq⟩
        rw [replaceAll_cons_pos r hu c x' heq]
        have hrl : rest.length < n := by
          have := congrArg List.length heq
          simp only [List.length_cons, List.length_append] at this
          simp only [List.length_cons] at hx
          omega
        have ihr := ih rest.length hrl rest le_rfl
        have hstrip := containsSub_strip_left ht (a := r) (replaceAll u r rest) hA hB
        refine ⟨?_, ?_, ?_⟩
        · intro h
          rw [hstrip.1] at h
          rw [heq]
          exact containsSub_append_right u (ihr.1 h)
        · intro k hk hk0 h
          rcases pfx_append_cases h with h1 | ⟨q, hq, h2⟩
          · rw [(hC k hk hk0).1] at h1
            cases h1
          · exfalso
            have hrp : pfx r (t.drop k) = true := (pfx_iff _ _).2 ⟨q, hq⟩
            rw [(hC k hk hk0).2] at hrp
            cases hrp
        · intro h
          rw [hstrip.2] at h
          rw [heq]
          exact containsTwoSub_append_right ht u (ihr.2.2 h)
      · have hpf : pfx u (c :: x') = false := by simpa using hp
        rw [replaceAll_cons_neg r c x' hpf]
        have hx'n : x'.length < n := by
          simp only [List.length_cons] at hx
          omega
        have ihs := ih x'.length hx'n x' le_rfl
        have comp2 : ∀ k, k < t.length → 0 < k →
            pfx (t.drop k) (c :: replaceAll u r x') = true →
            pfx (t.drop k) (c :: x') = true := by
          intro k hk hk0 hgoal
          have hdk : t.drop k = t.getD k ' ' :: t.drop (k + 1) := drop_cons_getD t k hk
          rw [hdk] at hgoal ⊢
          rcases pfx_cons_iff.1 hgoal with ⟨hc1, hc2⟩
          refine pfx_cons_iff.2 ⟨hc1, ?_⟩
          by_cases hk1 : k + 1 < t.length
          · exact ihs.2.1 (k + 1) hk1 (by omega) hc2
          · have hnil : t.drop (k + 1) = [] := List.drop_eq_nil_of_le (by omega)
            rw [hnil]
            rfl
        have hpfx_back : pfx t (c :: replaceAll u r x') = true →
            pfx t (c :: x') = true := by
          intro hcon
          cases t with
          | nil => exact absurd rfl ht
          | cons t0 t' =>
            obtain ⟨ht0, htp⟩ := pfx_cons_iff.1 hcon
            cases t' with
            | nil => exact pfx_cons_iff.2 ⟨ht0, rfl⟩
            | cons t1 t'' =>
              have hk1 : 1 < (t0 :: t1 :: t'').length := by simp
              exact pfx_cons_iff.2 ⟨ht0, ihs.2.1 1 hk1 (by omega) htp⟩
        refine ⟨?_, comp2, ?_⟩
        · intro h
          rw [containsSub_cons_eq] at h
          simp only [Bool.or_eq_true] at h
          rcases h with h | h
          · rw [containsSub_cons_eq, hpfx_back h]
            rfl
          · exact containsSub_cons c (ihs.1 h)
        · intro h
          rw [containsTwoSub_cons_eq] at h
          by_cases hx2 : pfx t (c :: replaceAll u r x') = true
          · rw [if_pos hx2] at h
            rw [containsTwoSub_cons_eq, if_pos (hpfx_back hx2)]
            exact ihs.1 h
          · rw [if_neg hx2] at h
            have h2 := ihs.2.2 h
            rw [containsTwoSub_cons_eq]
            by_cases hx3 : pfx t (c :: x') = true
            · rw [if_pos hx3]
              exact containsSub_of_two ht h2
            · rw [if_neg hx3]
              exact h2

theorem replaceAll_self_elim_all (t r : List Char) (ht : t ≠ [])
    (hA : containsSub t r = false)
    (hB : ∀ k, k < t.length → 0 < k → sfxB (t.take k) r = false)
    (hC : ∀ k, k < t.length → 0 < k →
      pfx (t.drop k) r = false ∧ pfx r (t.drop k) = false)
    (s : List Char) : containsSub t (replaceAll t r s) = false :=
  (replaceAll_self_elim t r ht hA hB hC s.length s le_rfl).1

theorem replaceAll_pres_not (t u r : List Char) (ht : t ≠ []) (hu : u ≠ [])
    (hA : containsSub t r = false)
    (hB : ∀ k, k < t.length → 0 < k → sfxB (t.take k) r = false)
    (hC : ∀ k, k < t.length → 0 < k →
      pfx (t.drop k) r = false ∧ pfx r (t.drop k) = false)
    (x : List Char) (h : containsSub t x = false) :
    containsSub t (replaceAll u r x) = false := by
  by_contra hcon
  simp only [Bool.not_eq_false] at hcon
  have := (replaceAll_other_pres t u r ht hu hA hB hC x.length x le_rfl).1 hcon
  rw [h] at this
  cases this

theorem replaceAll_pres_not_two (t u r : List Char) (ht : t ≠ []) (hu : u ≠ [])
    (hA : containsSub t r = false)
    (hB : ∀ k, k < t.length → 0 < k → sfxB (t.take k) r = false)
    (hC : ∀ k, k < t.length → 0 < k →
      pfx (t.drop k) r = false ∧ pfx r (t.drop k) = false)
    (x : List Char) (h : containsTwoSub t x = false) :
    containsTwoSub t (replaceAll u r x) = false := by
  by_contra hcon
  simp only [Bool.not_eq_false] at hcon
  have := (replaceAll_other_pres t u r ht hu hA hB hC x.length x le_rfl).2.2 hcon
  rw [h] at this
  cases this

/-! ## Claim C3 -/

/-- C3 (amended): the four directory-rename replacements of
`CodexAdapter.transform_skill_md` leave no occurrence of `templates/` or
`docs/` in the renamed text (before the usage section is appended); every
input occurrence of the four patterns is replaced. The backticked forms can
survive via backtick-sharing overlaps, and the appended Codex usage section
itself reintroduces the literals `templates/` and `docs/` (see the
counterexample). -/
theorem c3_amended_directory_renames_eliminate_slash_forms (content : List Char) :
    containsSub patTemplatesSlash (CodexAdapter.directory_renames content) = false ∧
    containsSub patDocsSlash (CodexAdapter.directory_renames content) = false := by
  simp only [CodexAdapter.directory_renames]
  constructor
  · have h1 : containsSub patTemplatesSlash
        (replaceAll patTemplatesSlash patAssetsSlash content) = false :=
      replaceAll_self_elim_all _ _ (by decide) (by decide) (by decide) (by decide) content
    have h2 := replaceAll_pres_not patTemplatesSlash patDocsSlash patReferencesSlash
      (by decide) (by decide) (by decide) (by decide) (by decide) _ h1
    have h3 := replaceAll_pres_not patTemplatesSlash patBtTemplates patBtAssets
      (by decide) (by decide) (by decide) (by decide) (by decide) _ h2
    exact replaceAll_pres_not patTemplatesSlash patBtDocs patBtReferences
      (by decide) (by decide) (by decide) (by decide) (by decide) _ h3
  · have h1 : containsSub patDocsSlash
        (replaceAll patDocsSlash patReferencesSlash
          (replaceAll patTemplatesSlash patAssetsSlash content)) = false :=
      replaceAll_self_elim_all _ _ (by decide) (by decide) (by decide) (by decide) _
    have h2 := replaceAll_pres_not patDocsSlash patBtTemplates patBtAssets
      (by decide) (by decide) (by decide) (by decide) (by decide) _ h1
    exact replaceAll_pres_not patDocsSlash patBtDocs patBtReferences
      (by decide) (by decide) (by decide) (by decide) (by decide) _ h2

/-- Counterexample to C3 as stated: the appended Codex usage section itself
contains the literals `templates/` and `docs/`, so they are present in the
output even when the input contained them and they were replaced; and a
backtick-sharing pair of occurrences leaves a literal `` `templates` `` in
the output. -/
theorem c3_counterexample_section_and_overlap :
    containsSub patTemplatesSlash
      (CodexAdapter.transform_skill_md (("templates/x").data) (("demo").data)) = true ∧
    containsSub patDocsSlash
      (CodexAdapter.transform_skill_md (("templates/x").data) (("demo").data)) = true ∧
    containsSub patTemplatesSlash (("templates/x").data) = true ∧
    containsSub patBtTemplates
      (CodexAdapter.transform_skill_md (("`templates`templates`x").data)
        (("demo").data)) = true ∧
    containsSub patBtTemplates (("`templates`templates`x").data) = true :=
  ⟨by decide, by decide, by decide, by decide, by decide⟩

/-! ## Further strip lemmas and presence preservation (claim C4) -/

theorem pfx_refl (t : List Char) : pfx t t = true :=
  (pfx_iff _ _).2 ⟨[], by simp⟩

theorem pfx_append_long {p a : List Char} (b : List Char) (h : p.length ≤ a.length) :
    pfx p (a ++ b) = pfx p a := by
  by_cases h1 : pfx p a = true
  · rw [h1, pfx_mono_append b h1]
  · rw [show pfx p a = false from by simpa using h1]
    by_contra hcon
    simp only [Bool.not_eq_false] at hcon
    rcases pfx_append_cases hcon with h2 | ⟨q, hq, h2⟩
    · exact h1 h2
    · have hlen := congrArg List.length hq
      simp only [List.length_append] at hlen
      have hq0 : q = [] := List.length_eq_zero.1 (by omega)
      rw [hq0, List.append_nil] at hq
      exact h1 (hq ▸ pfx_refl p)

theorem containsSub_false_of_head_notin {c : Char} (t' : List Char) {s : List Char}
    (h : s.all (fun x => x != c) = true) : containsSub (c :: t') s = false := by
  by_contra hcon
  simp only [Bool.not_eq_false] at hcon
  rcases (containsSub_iff _ _).1 hcon with ⟨a, b, rfl⟩
  have hc : c ∈ a ++ (c :: t') ++ b := by simp
  have := (List.all_eq_true.1 h) c hc
  simp at this

theorem sfxB_take_false_of_head_notin {c : Char} (t' : List Char) {s : List Char}
    (h : s.all (fun x => x != c) = true) :
    ∀ k, 0 < k → sfxB ((c :: t').take k) s = false := by
  intro k hk
  by_contra hcon
  simp only [Bool.not_eq_false] at hcon
  have hform : (c :: t').take k = c :: t'.take (k - 1) := by
    have hk1 : k = (k - 1) + 1 := by omega
    rw [hk1]
    rfl
  rw [hform] at hcon
  have := (List.all_eq_true.1 h) c (sfxB_head_mem hcon)
  simp at this

/-- A block `z` free of `t` can be stripped from the front when every proper
non-empty tail of `t` fails to be a prefix of the remainder `b`. -/
theorem containsSub_strip_left_abs {t : List Char} (ht : t ≠ []) :
    ∀ {z : List Char} (b : List Char), containsSub t z = false →
      (∀ k, k < t.length → 0 < k → pfx (t.drop k) b = false) →
      containsSub t (z ++ b) = containsSub t b ∧
      containsTwoSub t (z ++ b) = containsTwoSub t b := by
  intro z
  induction z with
  | nil => intro b _ _; simp
  | cons c z' ih =>
    intro b hz hdrop
    have hnp : pfx t ((c :: z') ++ b) = false := by
      by_contra hcon
      simp only [Bool.not_eq_false] at hcon
      rcases pfx_append_cases hcon with h1 | ⟨q, hq, h2⟩
      · have : containsSub t (c :: z') = true := containsSub_of_sfx_pfx (sfxB_refl _) h1
        rw [hz] at this
        cases this
      · cases q with
        | nil =>
          rw [List.append_nil] at hq
          have : containsSub t (c :: z') = true := hq ▸ containsSub_self _
          rw [hz] at this
          cases this
        | cons q0 q' =>
          have hkt : (c :: z').length < t.length := by
            have := congrArg List.length hq
            simp only [List.length_append, List.length_cons] at this ⊢
            omega
          have hdq : t.drop (c :: z').length = q0 :: q' := by
            rw [hq]
            exact List.drop_left _ _
          have := hdrop (c :: z').length hkt (by simp)
          rw [hdq] at this
          rw [this] at h2
          cases h2
    have hz' : containsSub t z' = false := by
      have h2 := containsSub_cons_eq t c z'
      rw [hz] at h2
      have h3 := h2.symm
      simp only [Bool.or_eq_false_iff] at h3
      exact h3.2
    constructor
    · rw [List.cons_append, containsSub_cons_eq,
        show pfx t (c :: (z' ++ b)) = false from hnp]
      simp only [Bool.false_or]
      exact (ih b hz' hdrop).1
    · rw [List.cons_append, containsTwoSub_cons_eq,
        show pfx t (c :: (z' ++ b)) = false from hnp]
      simp only [Bool.false_eq_true, if_false]
      exact (ih b hz' hdrop).2

/-- A block `b` free of `t` can be stripped from the back when no proper
non-empty prefix of `t` is a suffix of `a`. -/
theorem containsSub_strip_right {t : List Char} (ht : t ≠ []) :
    ∀ {a : List Char} (b : List Char), containsSub t b = false →
      (∀ k, k < t.length → 0 < k → sfxB (t.take k) a = false) →
      containsSub t (a ++ b) = containsSub t a ∧
      containsTwoSub t (a ++ b) = containsTwoSub t a := by
  intro a
  induction a with
  | nil =>
    intro b hb _
    have hni : containsSub t [] = false := by
      rw [show containsSub t [] = t.isEmpty from rfl]
      simpa [List.isEmpty_iff] using ht
    have hb2 : containsTwoSub t b = false := by
      by_contra hcon
      simp only [Bool.not_eq_false] at hcon
      have := containsSub_of_two ht hcon
      rw [hb] at this
      cases this
    exact ⟨by rw [List.nil_append, hb, hni], by rw [List.nil_append, hb2]; rfl⟩
  | cons c a' ih =>
    intro b hb hspan
    have hbr : pfx t ((c :: a') ++ b) = pfx t (c :: a') := by
      by_cases h1 : pfx t (c :: a') = true
      · rw [h1]
        exact pfx_mono_append b h1
      · rw [show pfx t (c :: a') = false from by simpa using h1]
        by_contra hcon
        simp only [Bool.not_eq_false] at hcon
        rcases pfx_append_cases hcon with h2 | ⟨q, hq, h2⟩
        · exact h1 h2
        · cases q with
          | nil =>
            rw [List.append_nil] at hq
            exact h1 (hq ▸ pfx_refl t)
          | cons q0 q' =>
            have hkt : (c :: a').length < t.length := by
              have := congrArg List.length hq
              simp only [List.length_append, List.length_cons] at this ⊢
              omega
            have htake : t.take (c :: a').length = c :: a' := by
              rw [hq]
              exact List.take_left _ _
            have := hspan (c :: a').length hkt (by simp)
            rw [htake, sfxB_refl] at this
            cases this
    have hspan' : ∀ k, k < t.length → 0 < k → sfxB (t.take k) a' = false := by
      intro k hk hk0
      by_contra hcon
      simp only [Bool.not_eq_false] at hcon
      have := sfxB_cons c hcon
      rw [hspan k hk hk0] at this
      cases this
    have ihb := ih b hb hspan'
    constructor
    · rw [List.cons_append, containsSub_cons_eq,
        show pfx t (c :: (a' ++ b)) = pfx t ((c :: a') ++ b) from rfl, hbr,
        containsSub_cons_eq, ihb.1]
    · rw [List.cons_append, containsTwoSub_cons_eq,
        show pfx t (c :: (a' ++ b)) = pfx t ((c :: a') ++ b) from rfl, hbr,
        containsTwoSub_cons_eq]
      by_cases h1 : pfx t (c :: a') = true
      · rw [if_pos h1, if_pos h1, ihb.1]
      · rw [if_neg h1, if_neg h1, ihb.2]

/-- `replaceAll u r` preserves the presence of a text `t` whose occurrences
can never overlap a match of `u`: `t` and `u` do not contain each other, no
non-empty suffix of `u` is a prefix of `t`, and no non-empty prefix of `u`
is a suffix of `t`. -/
theorem replaceAll_keeps (t u r : List Char) (ht : t ≠ []) (hu : u ≠ [])
    (hD2 : containsSub t u = false) (hD3 : containsSub u t = false)
    (hD1 : ∀ L, L < u.length + 1 → L ≤ t.length → 0 < L →
      u.drop (u.length - L) = t.take L → False)
    (hD4 : ∀ L, L < u.length + 1 → L ≤ t.length → 0 < L →
      u.take L = t.drop (t.length - L) → False) :
    ∀ n (x : List Char), x.length ≤ n → containsSub t x = true →
      containsSub t (replaceAll u r x) = true := by
  intro n
  induction n using Nat.strong_induction_on with
  | _ n ih =>
    intro x hx hcon
    cases x with
    | nil =>
      rw [show containsSub t [] = t.isEmpty from rfl] at hcon
      rw [List.isEmpty_iff] at hcon
      exact absurd hcon ht
    | cons c x' =>
      by_cases hp : pfx u (c :: x') = true
      · rcases (pfx_iff _ _).1 hp with ⟨rest, heq⟩
        rw [replaceAll_cons_pos r hu c x' heq]
        have hu1 : 1 ≤ u.length := by
          cases u with
          | nil => exact absurd rfl hu
          | cons _ _ => simp
        have hrl : rest.length < n := by
          have := congrArg List.length heq
          simp only [List.length_cons, List.length_append] at this
          simp only [List.length_cons] at hx
          omega
        rw [heq] at hcon
        rcases containsSub_split hcon with h1 | h1 | ⟨k, hk0, hkt, hsfx, hpfx2⟩
        · rw [hD2] at h1
          cases h1
        · exact containsSub_append_right r (ih rest.length hrl rest le_rfl h1)
        · exfalso
          rcases (sfxB_iff _ _).1 hsfx with ⟨pre, hpre⟩
          have hklen : (t.take k).length = k := by
            simp only [List.length_take]
            omega
          have hku : k ≤ u.length := by
            have := congrArg List.length hpre
            simp only [List.length_append, hklen] at this
            omega
          have hdrop : u.drop (u.length - k) = t.take k := by
            have hpl : pre.length = u.length - k := by
              have := congrArg List.length hpre
              simp only [List.length_append, hklen] at this
              omega
            rw [← hpl, hpre]
            exact List.drop_left _ _
          exact hD1 k (by omega) (by omega) hk0 hdrop
      · have hpf : pfx u (c :: x') = false := by simpa using hp
        have hx'n : x'.length < n := by
          simp only [List.length_cons] at hx
          omega
        rw [containsSub_cons_eq] at hcon
        simp only [Bool.or_eq_true] at hcon
        rcases hcon with hcon | hcon
        · -- the occurrence starts at position 0: no `u`-match can start
          -- within it, so its characters are copied verbatim
          rcases (pfx_iff _ _).1 hcon with ⟨z, hz⟩
          have hnom : ∀ q, q < t.length → pfx u ((c :: x').drop q) = false := by
            intro q hq
            cases q with
            | zero => exact hpf
            | succ q' =>
              rw [hz, List.drop_append_eq_append_drop]
              have hzz : q' + 1 - t.length = 0 := by omega
              rw [hzz, List.drop_zero]
              by_contra hcon2
              simp only [Bool.not_eq_false] at hcon2
              rcases pfx_append_cases hcon2 with h2 | ⟨w, hw, h2⟩
              · rcases (pfx_iff _ _).1 h2 with ⟨w2, hw2⟩
                have : containsSub u t = true := by
                  refine (containsSub_iff _ _).2 ⟨t.take (q' + 1), w2, ?_⟩
                  conv_lhs => rw [← List.take_append_drop (q' + 1) t]
                  rw [hw2, List.append_assoc]
                have h3 := this
                rw [hD3] at h3
                cases h3
              · have hL : (t.drop (q' + 1)).length = t.length - (q' + 1) := by
                  simp
                have hLu : (t.drop (q' + 1)).length ≤ u.length := by
                  have := congrArg List.length hw
                  simp only [List.length_append] at this
                  omega
                have htake : u.take (t.drop (q' + 1)).length = t.drop (q' + 1) := by
                  rw [hw]
                  exact List.take_left _ _
                refine hD4 (t.drop (q' + 1)).length (by omega) (by rw [hL]; omega)
                  (by rw [hL]; omega) ?_
                rw [htake, hL]
                congr 1
                omega
          have hcopy := replaceAll_copy u r t.length (c :: x') hnom
          rw [hcopy, hz, List.take_left' rfl]
          exact containsSub_append_left _ (containsSub_self t)
        · rw [replaceAll_cons_neg r c x' hpf]
          exact containsSub_cons c (ih x'.length hx'n x' le_rfl hcon)

theorem dropban_long {t piece : List Char} (rest : List Char)
    (hlen : t.length ≤ piece.length + 1)
    (hd : ∀ k, k < t.length → 0 < k → pfx (t.drop k) piece = false) :
    ∀ k, k < t.length → 0 < k → pfx (t.drop k) (piece ++ rest) = false := by
  intro k hk hk0
  rw [pfx_append_long rest (by simp only [List.length_drop]; omega)]
  exact hd k hk hk0

/-- Facts about the OpenCode usage section for a `$`-free, heading-free
skill name: it is free of the placeholder variable, contains the usage
heading exactly once. -/
theorem ocSection_facts (nm : List Char) (hnm : nm.all (fun x => x != '$') = true)
    (hnmH : containsSub ocHeading nm = false) :
    containsSub varPat (OpenCodeAdapter.opencode_section nm) = false ∧
    containsSub ocHeading (OpenCodeAdapter.opencode_section nm) = true ∧
    containsTwoSub ocHeading (OpenCodeAdapter.opencode_section nm) = false := by
  have hvne : varPat ≠ [] := by decide
  have hhne : ocHeading ≠ [] := by decide
  simp only [OpenCodeAdapter.opencode_section, List.append_assoc]
  refine ⟨?_, ?_, ?_⟩
  · rw [(containsSub_strip_left hvne _ (by decide) (by decide)).1,
      (containsSub_strip_left hvne _
        (containsSub_false_of_head_notin _ hnm)
        (fun k _ hk0 => sfxB_take_false_of_head_notin _ hnm k hk0)).1,
      (containsSub_strip_left hvne _ (by decide) (by decide)).1,
      (containsSub_strip_left hvne _
        (containsSub_false_of_head_notin _ hnm)
        (fun k _ hk0 => sfxB_take_false_of_head_notin _ hnm k hk0)).1]
    decide
  · have hinner : containsSub ocHeading
        (nm ++ (ocSec2 ++ (nm ++ ocSec3))) = false := by
      rw [(containsSub_strip_left_abs hhne _ hnmH
          (dropban_long _ (by decide) (by decide))).1,
        (containsSub_strip_left hhne _ (by decide) (by decide)).1,
        (containsSub_strip_left_abs hhne _ hnmH (by decide)).1]
      decide
    rw [(containsSub_strip_right hhne _ hinner (by decide)).1]
    decide
  · have hinner : containsSub ocHeading
        (nm ++ (ocSec2 ++ (nm ++ ocSec3))) = false := by
      rw [(containsSub_strip_left_abs hhne _ hnmH
          (dropban_long _ (by decide) (by decide))).1,
        (containsSub_strip_left hhne _ (by decide) (by decide)).1,
        (containsSub_strip_left_abs hhne _ hnmH (by decide)).1]
      decide
    rw [(containsSub_strip_right hhne _ hinner (by decide)).2]
    decide

/-- Facts about the Codex usage section for a `$`-free, heading-free skill
name, analogous to `ocSection_facts`. -/
theorem cxSection_facts (nm : List Char) (hnm : nm.all (fun x => x != '$') = true)
    (hnmH : containsSub cxHeading nm = false) :
    containsSub varPat (CodexAdapter.codex_section nm) = false ∧
    containsSub cxHeading (CodexAdapter.codex_section nm) = true ∧
    containsTwoSub cxHeading (CodexAdapter.codex_section nm) = false := by
  have hvne : varPat ≠ [] := by decide
  have hhne : cxHeading ≠ [] := by decide
  simp only [CodexAdapter.codex_section, List.append_assoc]
  have hinner : containsSub cxHeading (nm ++ (cxSec2 ++ (nm ++ cxSec3))) = false := by
    rw [(containsSub_strip_left_abs hhne _ hnmH
        (dropban_long _ (by decide) (by decide))).1,
      (containsSub_strip_left hhne _ (by decide) (by decide)).1,
      (containsSub_strip_left_abs hhne _ hnmH (by decide)).1]
    decide
  refine ⟨?_, ?_, ?_⟩
  · rw [(containsSub_strip_left hvne _ (by decide) (by decide)).1,
      (containsSub_strip_left hvne _
        (containsSub_false_of_head_notin _ hnm)
        (fun k _ hk0 => sfxB_take_false_of_head_notin _ hnm k hk0)).1,
      (containsSub_strip_left hvne _ (by decide) (by decide)).1,
      (containsSub_strip_left hvne _
        (containsSub_false_of_head_notin _ hnm)
        (fun k _ hk0 => sfxB_take_false_of_head_notin _ hnm k hk0)).1]
    decide
  · rw [(containsSub_strip_right hhne _ hinner (by decide)).1]
    decide
  · rw [(containsSub_strip_right hhne _ hinner (by decide)).2]
    decide

/-- Facts about the Gemini usage section for a `$`-free, heading-free skill
name, analogous to `ocSection_facts`. -/
theorem gmSection_facts (nm : List Char) (hnm : nm.all (fun x => x != '$') = true)
    (hnmH : containsSub gmHeading nm = false) :
    containsSub varPat (GeminiAdapter.gemini_section nm) = false ∧
    containsSub gmHeading (GeminiAdapter.gemini_section nm) = true ∧
    containsTwoSub gmHeading (GeminiAdapter.gemini_section nm) = false := by
  have hvne : varPat ≠ [] := by decide
  have hhne : gmHeading ≠ [] := by decide
  simp only [GeminiAdapter.gemini_section, List.append_assoc]
  have hinner : containsSub gmHeading
      (nm ++ (gmSec2 ++ (nm ++ (gmSec3 ++ (nm ++ (gmSec4 ++ (nm ++ gmSec5))))))) =
        false := by
    rw [(containsSub_strip_left_abs hhne _ hnmH
        (dropban_long _ (by decide) (by decide))).1,
      (containsSub_strip_left hhne _ (by decide) (by decide)).1,
      (containsSub_strip_left_abs hhne _ hnmH
        (dropban_long _ (by decide) (by decide))).1,
      (containsSub_strip_left hhne _ (by decide) (by decide)).1,
      (containsSub_strip_left_abs hhne _ hnmH
        (dropban_long _ (by decide) (by decide))).1,
      (containsSub_strip_left hhne _ (by decide) (by decide)).1,
      (containsSub_strip_left_abs hhne _ hnmH (by decide)).1]
    decide
  refine ⟨?_, ?_, ?_⟩
  · rw [(containsSub_strip_left hvne _ (by decide) (by decide)).1,
      (containsSub_strip_left hvne _
        (containsSub_false_of_head_notin _ hnm)
        (fun k _ hk0 => sfxB_take_false_of_head_notin _ hnm k hk0)).1,
      (containsSub_strip_left hvne _ (by decide) (by decide)).1,
      (containsSub_strip_left hvne _
        (containsSub_false_of_head_notin _ hnm)
        (fun k _ hk0 => sfxB_take_false_of_head_notin _ hnm k hk0)).1,
      (containsSub_strip_left hvne _ (by decide) (by decide)).1,
      (containsSub_strip_left hvne _
        (containsSub_false_of_head_notin _ hnm)
        (fun k _ hk0 => sfxB_take_false_of_head_notin _ hnm k hk0)).1,
      (containsSub_strip_left hvne _ (by decide) (by decide)).1,
      (containsSub_strip_left hvne _
        (containsSub_false_of_head_notin _ hnm)
        (fun k _ hk0 => sfxB_take_false_of_head_notin _ hnm k hk0)).1]
    decide
  · rw [(containsSub_strip_right hhne _ hinner (by decide)).1]
    decide
  · rw [(containsSub_strip_right hhne _ hinner (by decide)).2]
    decide

theorem opencode_md_no_dup (content nm : List Char)
    (hH : containsSub ocHeading content = false)
    (hV : containsSub varPat content = false)
    (hnm : nm.all (fun x => x != '$') = true)
    (hnmH : containsSub ocHeading nm = false) :
    containsTwoSub ocHeading
      (OpenCodeAdapter.transform_skill_md
        (OpenCodeAdapter.transform_skill_md content nm) nm) = false := by
  have hhne : ocHeading ≠ [] := by decide
  have facts := ocSection_facts nm hnm hnmH
  have hcomm : common_skill_md_transforms content = content := replaceAll_id [] hV
  have hdbH : ∀ k, k < ocHeading.length → 0 < k →
      pfx (ocHeading.drop k) (OpenCodeAdapter.opencode_section nm) = false := by
    intro k hk hk0
    simp only [OpenCodeAdapter.opencode_section, List.append_assoc]
    exact dropban_long _ (by decide) (by decide) k hk hk0
  have hdbV : ∀ k, k < varPat.length → 0 < k →
      pfx (varPat.drop k) (OpenCodeAdapter.opencode_section nm) = false := by
    intro k hk hk0
    simp only [OpenCodeAdapter.opencode_section, List.append_assoc]
    exact dropban_long _ (by decide) (by decide) k hk hk0
  have hstep1 : OpenCodeAdapter.transform_skill_md content nm =
      content ++ OpenCodeAdapter.opencode_section nm := by
    simp only [OpenCodeAdapter.transform_skill_md, hcomm]
    rw [if_neg (by simp [hH])]
  rw [hstep1]
  have hstrip := containsSub_strip_left_abs hhne (z := content)
    (OpenCodeAdapter.opencode_section nm) hH hdbH
  have hyH : containsSub ocHeading
      (content ++ OpenCodeAdapter.opencode_section nm) = true := by
    rw [hstrip.1]
    exact facts.2.1
  have hyV : containsSub varPat
      (content ++ OpenCodeAdapter.opencode_section nm) = false := by
    rw [(containsSub_strip_left_abs (by decide) (z := content)
      (OpenCodeAdapter.opencode_section nm) hV hdbV).1]
    exact facts.1
  have hcomm2 : common_skill_md_transforms
      (content ++ OpenCodeAdapter.opencode_section nm) =
      content ++ OpenCodeAdapter.opencode_section nm := replaceAll_id [] hyV
  have hstep2 : OpenCodeAdapter.transform_skill_md
      (content ++ OpenCodeAdapter.opencode_section nm) nm =
      content ++ OpenCodeAdapter.opencode_section nm := by
    simp only [OpenCodeAdapter.transform_skill_md, hcomm2]
    rw [if_pos hyH]
  rw [hstep2, hstrip.2]
  exact facts.2.2

theorem gemini_md_no_dup (content nm : List Char)
    (hH : containsSub gmHeading content = false)
    (hV : containsSub varPat content = false)
    (hnm : nm.all (fun x => x != '$') = true)
    (hnmH : containsSub gmHeading nm = false) :
    containsTwoSub gmHeading
      (GeminiAdapter.transform_skill_md
        (GeminiAdapter.transform_skill_md content nm) nm) = false := by
  have hhne : gmHeading ≠ [] := by decide
  have facts := gmSection_facts nm hnm hnmH
  have hcomm : common_skill_md_transforms content = content := replaceAll_id [] hV
  have hdbH : ∀ k, k < gmHeading.length → 0 < k →
      pfx (gmHeading.drop k) (GeminiAdapter.gemini_section nm) = false := by
    intro k hk hk0
    simp only [GeminiAdapter.gemini_section, List.append_assoc]
    exact dropban_long _ (by decide) (by decide) k hk hk0
  have hdbV : ∀ k, k < varPat.length → 0 < k →
      pfx (varPat.drop k) (GeminiAdapter.gemini_section nm) = false := by
    intro k hk hk0
    simp only [GeminiAdapter.gemini_section, List.append_assoc]
    exact dropban_long _ (by decide) (by decide) k hk hk0
  have hstep1 : GeminiAdapter.transform_skill_md content nm =
      content ++ GeminiAdapter.gemini_section nm := by
    simp only [GeminiAdapter.transform_skill_md, hcomm]
    rw [if_neg (by simp [hH])]
  rw [hstep1]
  have hstrip := containsSub_strip_left_abs hhne (z := content)
    (GeminiAdapter.gemini_section nm) hH hdbH
  have hyH : containsSub gmHeading
      (content ++ GeminiAdapter.gemini_section nm) = true := by
    rw [hstrip.1]
    exact facts.2.1
  have hyV : containsSub varPat
      (content ++ GeminiAdapter.gemini_section nm) = false := by
    rw [(containsSub_strip_left_abs (by decide) (z := content)
      (GeminiAdapter.gemini_section nm) hV hdbV).1]
    exact facts.1
  have hcomm2 : common_skill_md_transforms
      (content ++ GeminiAdapter.gemini_section nm) =
      content ++ GeminiAdapter.gemini_section nm := replaceAll_id [] hyV
  have hstep2 : GeminiAdapter.transform_skill_md
      (content ++ GeminiAdapter.gemini_section nm) nm =
      content ++ GeminiAdapter.gemini_section nm := by
    simp only [GeminiAdapter.transform_skill_md, hcomm2]
    rw [if_pos hyH]
  rw [hstep2, hstrip.2]
  exact facts.2.2

theorem codex_md_no_dup (content nm : List Char)
    (hH : containsSub cxHeading content = false)
    (hV : containsSub varPat content = false)
    (hnm : nm.all (fun x => x != '$') = true)
    (hnmH : containsSub cxHeading nm = false) :
    containsTwoSub cxHeading
      (CodexAdapter.transform_skill_md
        (CodexAdapter.transform_skill_md content nm) nm) = false := by
  have hhne : cxHeading ≠ [] := by decide
  have facts := cxSection_facts nm hnm hnmH
  have hcomm : common_skill_md_transforms content = content := replaceAll_id [] hV
  have hzH : containsSub cxHeading (CodexAdapter.directory_renames content) = false := by
    simp only [CodexAdapter.directory_renames]
    exact replaceAll_pres_not cxHeading patBtDocs patBtReferences
      (by decide) (by decide) (by decide) (by decide) (by decide) _
      (replaceAll_pres_not cxHeading patBtTemplates patBtAssets
        (by decide) (by decide) (by decide) (by decide) (by decide) _
        (replaceAll_pres_not cxHeading patDocsSlash patReferencesSlash
          (by decide) (by decide) (by decide) (by decide) (by decide) _
          (replaceAll_pres_not cxHeading patTemplatesSlash patAssetsSlash
            (by decide) (by decide) (by decide) (by decide) (by decide) _ hH)))
  have hzV : containsSub varPat (CodexAdapter.directory_renames content) = false := by
    simp only [CodexAdapter.directory_renames]
    exact replaceAll_pres_not varPat patBtDocs patBtReferences
      (by decide) (by decide) (by decide) (by decide) (by decide) _
      (replaceAll_pres_not varPat patBtTemplates patBtAssets
        (by decide) (by decide) (by decide) (by decide) (by decide) _
        (replaceAll_pres_not varPat patDocsSlash patReferencesSlash
          (by decide) (by decide) (by decide) (by decide) (by decide) _
          (replaceAll_pres_not varPat patTemplatesSlash patAssetsSlash
            (by decide) (by decide) (by decide) (by decide) (by decide) _ hV)))
  have hdbH : ∀ k, k < cxHeading.length → 0 < k →
      pfx (cxHeading.drop k) (CodexAdapter.codex_section nm) = false := by
    intro k hk hk0
    simp only [CodexAdapter.codex_section, List.append_assoc]
    exact dropban_long _ (by decide) (by decide) k hk hk0
  have hdbV : ∀ k, k < varPat.length → 0 < k →
      pfx (varPat.drop k) (CodexAdapter.codex_section nm) = false := by
    intro k hk hk0
    simp only [CodexAdapter.codex_section, List.append_assoc]
    exact dropban_long _ (by decide) (by decide) k hk hk0
  have hstep1 : CodexAdapter.transform_skill_md content nm =
      CodexAdapter.directory_renames content ++ CodexAdapter.codex_section nm := by
    simp only [CodexAdapter.transform_skill_md, hcomm]
    rw [if_neg (by simp [hzH])]
  rw [hstep1]
  have hstrip := containsSub_strip_left_abs hhne
    (z := CodexAdapter.directory_renames content)
    (CodexAdapter.codex_section nm) hzH hdbH
  have hyH : containsSub cxHeading
      (CodexAdapter.directory_renames content ++ CodexAdapter.codex_section nm) =
        true := by
    rw [hstrip.1]
    exact facts.2.1
  have hyT : containsTwoSub cxHeading
      (CodexAdapter.directory_renames content ++ CodexAdapter.codex_section nm) =
        false := by
    rw [hstrip.2]
    exact facts.2.2
  have hyV : containsSub varPat
      (CodexAdapter.directory_renames content ++ CodexAdapter.codex_section nm) =
        false := by
    rw [(containsSub_strip_left_abs (by decide)
      (z := CodexAdapter.directory_renames content)
      (CodexAdapter.codex_section nm) hzV hdbV).1]
    exact facts.1
  have hcomm2 : common_skill_md_transforms
      (CodexAdapter.directory_renames content ++ CodexAdapter.codex_section nm) =
      CodexAdapter.directory_renames content ++ CodexAdapter.codex_section nm :=
    replaceAll_id [] hyV
  have hwH : containsSub cxHeading (CodexAdapter.directory_renames
      (CodexAdapter.directory_renames content ++ CodexAdapter.codex_section nm)) =
        true := by
    simp only [CodexAdapter.directory_renames]
    refine replaceAll_keeps cxHeading patBtDocs patBtReferences
      (by decide) (by decide) (by decide) (by decide) (by decide) (by decide) _ _
      le_rfl ?_
    refine replaceAll_keeps cxHeading patBtTemplates patBtAssets
      (by decide) (by decide) (by decide) (by decide) (by decide) (by decide) _ _
      le_rfl ?_
    refine replaceAll_keeps cxHeading patDocsSlash patReferencesSlash
      (by decide) (by decide) (by decide) (by decide) (by decide) (by decide) _ _
      le_rfl ?_
    exact replaceAll_keeps cxHeading patTemplatesSlash patAssetsSlash
      (by decide) (by decide) (by decide) (by decide) (by decide) (by decide) _ _
      le_rfl hyH
  have hwT : containsTwoSub cxHeading (CodexAdapter.directory_renames
      (CodexAdapter.directory_renames content ++ CodexAdapter.codex_section nm)) =
        false := by
    simp only [CodexAdapter.directory_renames]
    exact replaceAll_pres_not_two cxHeading patBtDocs patBtReferences
      (by decide) (by decide) (by decide) (by decide) (by decide) _
      (replaceAll_pres_not_two cxHeading patBtTemplates patBtAssets
        (by decide) (by decide) (by decide) (by decide) (by decide) _
        (replaceAll_pres_not_two cxHeading patDocsSlash patReferencesSlash
          (by decide) (by decide) (by decide) (by decide) (by decide) _
          (replaceAll_pres_not_two cxHeading patTemplatesSlash patAssetsSlash
            (by decide) (by decide) (by decide) (by decide) (by decide) _ hyT)))
  have hstep2 : CodexAdapter.transform_skill_md
      (CodexAdapter.directory_renames content ++ CodexAdapter.codex_section nm) nm =
      CodexAdapter.directory_renames
        (CodexAdapter.directory_renames content ++ CodexAdapter.codex_section nm) := by
    simp only [CodexAdapter.transform_skill_md, hcomm2]
    rw [if_pos hwH]
  rw [hstep2]
  exact hwT

/-- C4 (corrected): the original claim fails for inputs that already contain the
usage heading more than once (or contain heading fragments spliced by the
transforms), since the idempotence guard only checks for at least one
occurrence and never removes duplicates. Amended: for every adapter, every
content and skill_name such that the content contains neither the adapter's
usage heading nor the literal variable pattern that the common transform
removes, and the skill_name contains no dollar character and not the heading,
applying transform_skill_md twice with that skill_name yields a result without
two occurrences of the adapter's CLI-specific usage heading. -/
theorem c4_amended_no_duplicate_usage_heading (content skill_name : List Char)
    (hnm : skill_name.all (fun x => x != '$') = true) :
    (containsSub ocHeading content = false → containsSub varPat content = false →
      containsSub ocHeading skill_name = false →
      containsTwoSub ocHeading (OpenCodeAdapter.transform_skill_md
        (OpenCodeAdapter.transform_skill_md content skill_name) skill_name)
        = false) ∧
    (containsSub cxHeading content = false → containsSub varPat content = false →
      containsSub cxHeading skill_name = false →
      containsTwoSub cxHeading (CodexAdapter.transform_skill_md
        (CodexAdapter.transform_skill_md content skill_name) skill_name)
        = false) ∧
    (containsSub gmHeading content = false → containsSub varPat content = false →
      containsSub gmHeading skill_name = false →
      containsTwoSub gmHeading (GeminiAdapter.transform_skill_md
        (GeminiAdapter.transform_skill_md content skill_name) skill_name)
        = false) :=
  ⟨fun hH hV hnmH => opencode_md_no_dup content skill_name hH hV hnm hnmH,
   fun hH hV hnmH => codex_md_no_dup content skill_name hH hV hnm hnmH,
   fun hH hV hnmH => gemini_md_no_dup content skill_name hH hV hnm hnmH⟩

/-- Witness for C4: the amended theorem applied at a concrete manifest body and
skill name satisfying all hypotheses. -/
theorem c4_amended_no_duplicate_usage_heading_witness :
    containsTwoSub ocHeading (OpenCodeAdapter.transform_skill_md
      (OpenCodeAdapter.transform_skill_md (("# demo skill").data) (("demo").data))
      (("demo").data)) = false ∧
    containsTwoSub cxHeading (CodexAdapter.transform_skill_md
      (CodexAdapter.transform_skill_md (("# demo skill").data) (("demo").data))
      (("demo").data)) = false ∧
    containsTwoSub gmHeading (GeminiAdapter.transform_skill_md
      (GeminiAdapter.transform_skill_md (("# demo skill").data) (("demo").data))
      (("demo").data)) = false :=
  ⟨(c4_amended_no_duplicate_usage_heading (("# demo skill").data) (("demo").data)
      (by decide)).1 (by decide) (by decide) (by decide),
   (c4_amended_no_duplicate_usage_heading (("# demo skill").data) (("demo").data)
      (by decide)).2.1 (by decide) (by decide) (by decide),
   (c4_amended_no_duplicate_usage_heading (("# demo skill").data) (("demo").data)
      (by decide)).2.2 (by decide) (by decide) (by decide)⟩

/-- Counterexample for the original C4: a content that already contains the
OpenCode usage heading twice passes through transform_skill_md unchanged both
times (the guard finds the heading present and skips appending), so the doubly
transformed result still contains two occurrences of the heading. -/
theorem c4_counterexample_duplicate_heading :
    OpenCodeAdapter.transform_skill_md
      (OpenCodeAdapter.transform_skill_md (ocHeading ++ ocHeading) (("demo").data))
      (("demo").data) = ocHeading ++ ocHeading ∧
    containsTwoSub ocHeading (ocHeading ++ ocHeading) = true := by
  exact ⟨by decide, by decide⟩
